import Mathlib

/-!
Verification of the lightChain blockchain core (hliangzhao/lightChain).

This file gives a shallow embedding of the Go sources into Lean 4 and proves
(or refutes) the specification claims about them.  Bytes are modelled as
natural numbers below 256, byte slices as lists of naturals, machine integers
as Int or Nat with explicit wrap-around where it matters, and panics of the
Go runtime as Option or Except results.  The SHA-256 and RIPEMD-160 primitives
used by the wallet code are implemented for real; the gob serialization and
the P-256 ECDSA primitive are abstracted as parameters of the transaction
model, since their byte-level behaviour is not part of any claim.
-/

set_option maxRecDepth 100000

/- The rational operations of Batteries are marked irreducible, which blocks
the evaluation of closed terms by the decide tactic; restore the ordinary
transparency (the kernel ignores reducibility annotations, so proofs are
unaffected). -/
set_option allowUnsafeReducibility true in
attribute [semireducible] Rat.add Rat.sub Rat.mul

namespace LightChain

/-! ## Bytes and big integers

The Go code moves between byte slices and math/big integers with
big.Int.SetBytes (big-endian bytes to integer) and big.Int.Bytes
(integer to minimal big-endian bytes, empty for zero).
-/

/-- big.Int.SetBytes: interpret a byte slice as a big-endian unsigned integer. -/
def beNat (l : List Nat) : Nat :=
  l.foldl (fun acc b => acc * 256 + b) 0

/-- Little-endian digits of x in the given base, empty for zero.  The first
numeric argument is recursion fuel; fuel x is always enough because
x / base < x for positive x and base at least 2. -/
def digitsLE (base : Nat) : Nat → Nat → List Nat
  | 0, _ => []
  | fuel + 1, x => if x = 0 then [] else x % base :: digitsLE base fuel (x / base)

/-- big.Int.Bytes: the minimal big-endian byte representation, empty for 0. -/
def natBytes (x : Nat) : List Nat :=
  (digitsLE 256 x x).reverse

/-- utils.Int2Hex: the 8-byte big-endian two's-complement encoding of an int64. -/
def int2Hex (v : Int) : List Nat :=
  let n : Nat := (v % (2 ^ 64 : Int)).toNat
  [n >>> 56 % 256, n >>> 48 % 256, n >>> 40 % 256, n >>> 32 % 256,
   n >>> 24 % 256, n >>> 16 % 256, n >>> 8 % 256, n % 256]

/-! ## SHA-256 (crypto/sha256) -/

/-- Truncation to a 32-bit word. -/
def w32 (x : Nat) : Nat := x % 4294967296

/-- 32-bit right rotation. -/
def rotr32 (n x : Nat) : Nat := w32 ((x >>> n) ||| (x <<< (32 - n)))

/-- 32-bit bitwise complement. -/
def not32 (x : Nat) : Nat := x ^^^ 4294967295

/-- The SHA-256 round constants. -/
def shaK : List Nat :=
  [1116352408, 1899447441, 3049323471, 3921009573, 961987163, 1508970993,
   2453635748, 2870763221, 3624381080, 310598401, 607225278, 1426881987,
   1925078388, 2162078206, 2614888103, 3248222580, 3835390401, 4022224774,
   264347078, 604807628, 770255983, 1249150122, 1555081692, 1996064986,
   2554220882, 2821834349, 2952996808, 3210313671, 3336571891, 3584528711,
   113926993, 338241895, 666307205, 773529912, 1294757372, 1396182291,
   1695183700, 1986661051, 2177026350, 2456956037, 2730485921, 2820302411,
   3259730800, 3345764771, 3516065817, 3600352804, 4094571909, 275423344,
   430227734, 506948616, 659060556, 883997877, 958139571, 1322822218,
   1537002063, 1747873779, 1955562222, 2024104815, 2227730452, 2361852424,
   2428436474, 2756734187, 3204031479, 3329325298]

/-- Group a byte list into big-endian 32-bit words (leftover bytes dropped). -/
def toWordsBE : List Nat → List Nat
  | b0 :: b1 :: b2 :: b3 :: rest =>
      (((b0 * 256 + b1) * 256 + b2) * 256 + b3) :: toWordsBE rest
  | _ => []

/-- A 32-bit word as four big-endian bytes. -/
def wordBytesBE (w : Nat) : List Nat :=
  [w >>> 24 &&& 255, w >>> 16 &&& 255, w >>> 8 &&& 255, w &&& 255]

/-- Extend the 16 message words to 64 schedule words.  The accumulator holds
the schedule produced so far in reverse order. -/
def shaSchedAux : Nat → List Nat → List Nat
  | 0, acc => acc.reverse
  | n + 1, acc =>
      let t1 := acc.getD 1 0
      let t0 := acc.getD 14 0
      let s1 := rotr32 17 t1 ^^^ rotr32 19 t1 ^^^ (t1 >>> 10)
      let s0 := rotr32 7 t0 ^^^ rotr32 18 t0 ^^^ (t0 >>> 3)
      shaSchedAux n (w32 (s1 + acc.getD 6 0 + s0 + acc.getD 15 0) :: acc)

/-- The 64-entry message schedule of one SHA-256 block. -/
def shaSched (ws : List Nat) : List Nat :=
  shaSchedAux 48 ws.reverse

/-- The running state of the SHA-256 compression function. -/
structure Sha8 where
  a : Nat
  b : Nat
  c : Nat
  d : Nat
  e : Nat
  f : Nat
  g : Nat
  hh : Nat
deriving Repr, DecidableEq

/-- One round of the SHA-256 compression function. -/
def shaStep (st : Sha8) (kw : Nat × Nat) : Sha8 :=
  let S1 := rotr32 6 st.e ^^^ rotr32 11 st.e ^^^ rotr32 25 st.e
  let ch := (st.e &&& st.f) ^^^ (not32 st.e &&& st.g)
  let t1 := w32 (st.hh + S1 + ch + kw.1 + kw.2)
  let S0 := rotr32 2 st.a ^^^ rotr32 13 st.a ^^^ rotr32 22 st.a
  let mj := (st.a &&& st.b) ^^^ (st.a &&& st.c) ^^^ (st.b &&& st.c)
  let t2 := w32 (S0 + mj)
  ⟨w32 (t1 + t2), st.a, st.b, st.c, w32 (st.d + t1), st.e, st.f, st.g⟩

/-- Compress one 64-byte block into the state. -/
def shaCompress (st : Sha8) (block : List Nat) : Sha8 :=
  let ws := shaSched (toWordsBE block)
  let r := (shaK.zip ws).foldl shaStep st
  ⟨w32 (st.a + r.a), w32 (st.b + r.b), w32 (st.c + r.c), w32 (st.d + r.d),
   w32 (st.e + r.e), w32 (st.f + r.f), w32 (st.g + r.g), w32 (st.hh + r.hh)⟩

/-- Split a list into chunks of 64 elements (first argument is fuel). -/
def chunks64 : Nat → List Nat → List (List Nat)
  | 0, _ => []
  | _ + 1, [] => []
  | n + 1, l => l.take 64 :: chunks64 n (l.drop 64)

/-- The SHA-256 padding of a message: a 0x80 byte, zeros to 56 mod 64, and
the bit length as a big-endian 64-bit integer. -/
def shaPad (msg : List Nat) : List Nat :=
  msg ++ 128 :: List.replicate ((119 - msg.length % 64) % 64) 0
      ++ (int2Hex (8 * (msg.length : Int)))

/-- SHA-256 of a byte list, as 32 bytes. -/
def sha256 (msg : List Nat) : List Nat :=
  let padded := shaPad msg
  let st := (chunks64 (padded.length + 1) padded).foldl shaCompress
    ⟨0x6a09e667, 0xbb67ae85, 0x3c6ef372, 0xa54ff53a,
     0x510e527f, 0x9b05688c, 0x1f83d9ab, 0x5be0cd19⟩
  wordBytesBE st.a ++ wordBytesBE st.b ++ wordBytesBE st.c ++ wordBytesBE st.d
    ++ wordBytesBE st.e ++ wordBytesBE st.f ++ wordBytesBE st.g ++ wordBytesBE st.hh

/-- SHA-256 of the empty message, against the published test vector. -/
theorem sha256_nil_vector :
    sha256 [] =
      [227, 176, 196, 66, 152, 252, 28, 20, 154, 251, 244, 200, 153, 111, 185, 36,
       39, 174, 65, 228, 100, 155, 147, 76, 164, 149, 153, 27, 120, 82, 184, 85] := by
  decide

/-- SHA-256 of the three bytes of the string abc, against the published vector. -/
theorem sha256_abc_vector :
    sha256 [97, 98, 99] =
      [186, 120, 22, 191, 143, 1, 207, 234, 65, 65, 64, 222, 93, 174, 34, 35,
       176, 3, 97, 163, 150, 23, 122, 156, 180, 16, 255, 97, 242, 0, 21, 173] := by
  decide

/-! ## RIPEMD-160 (golang.org/x/crypto/ripemd160) -/

/-- 32-bit left rotation. -/
def rotl32 (n x : Nat) : Nat := w32 ((x <<< n) ||| (x >>> (32 - n)))

/-- Group a byte list into little-endian 32-bit words (leftover bytes dropped). -/
def toWordsLE : List Nat → List Nat
  | b0 :: b1 :: b2 :: b3 :: rest =>
      (((b3 * 256 + b2) * 256 + b1) * 256 + b0) :: toWordsLE rest
  | _ => []

/-- A 32-bit word as four little-endian bytes. -/
def wordBytesLE (w : Nat) : List Nat :=
  [w &&& 255, w >>> 8 &&& 255, w >>> 16 &&& 255, w >>> 24 &&& 255]

/-- The RIPEMD-160 selection function for round j. -/
def rmdF (j x y z : Nat) : Nat :=
  if j < 16 then x ^^^ y ^^^ z
  else if j < 32 then (x &&& y) ||| (not32 x &&& z)
  else if j < 48 then (x ||| not32 y) ^^^ z
  else if j < 64 then (x &&& z) ||| (y &&& not32 z)
  else x ^^^ (y ||| not32 z)

/-- Message word order of the left line. -/
def rmdRL : List Nat :=
  [0, 1, 2, 3, 4, 5, 6, 7, 8, 9, 10, 11, 12, 13, 14, 15,
   7, 4, 13, 1, 10, 6, 15, 3, 12, 0, 9, 5, 2, 14, 11, 8,
   3, 10, 14, 4, 9, 15, 8, 1, 2, 7, 0, 6, 13, 11, 5, 12,
   1, 9, 11, 10, 0, 8, 12, 4, 13, 3, 7, 15, 14, 5, 6, 2,
   4, 0, 5, 9, 7, 12, 2, 10, 14, 1, 3, 8, 11, 6, 15, 13]

/-- Message word order of the right line. -/
def rmdRR : List Nat :=
  [5, 14, 7, 0, 9, 2, 11, 4, 13, 6, 15, 8, 1, 10, 3, 12,
   6, 11, 3, 7, 0, 13, 5, 10, 14, 15, 8, 12, 4, 9, 1, 2,
   15, 5, 1, 3, 7, 14, 6, 9, 11, 8, 12, 2, 10, 0, 4, 13,
   8, 6, 4, 1, 3, 11, 15, 0, 5, 12, 2, 13, 9, 7, 10, 14,
   12, 15, 10, 4, 1, 5, 8, 7, 6, 2, 13, 14, 0, 3, 9, 11]

/-- Rotation amounts of the left line. -/
def rmdSL : List Nat :=
  [11, 14, 15, 12, 5, 8, 7, 9, 11, 13, 14, 15, 6, 7, 9, 8,
   7, 6, 8, 13, 11, 9, 7, 15, 7, 12, 15, 9, 11, 7, 13, 12,
   11, 13, 6, 7, 14, 9, 13, 15, 14, 8, 13, 6, 5, 12, 7, 5,
   11, 12, 14, 15, 14, 15, 9, 8, 9, 14, 5, 6, 8, 6, 5, 12,
   9, 15, 5, 11, 6, 8, 13, 12, 5, 12, 13, 14, 11, 8, 5, 6]

/-- Rotation amounts of the right line. -/
def rmdSR : List Nat :=
  [8, 9, 9, 11, 13, 15, 15, 5, 7, 7, 8, 11, 14, 14, 12, 6,
   9, 13, 15, 7, 12, 8, 9, 11, 7, 7, 12, 7, 6, 15, 13, 11,
   9, 7, 15, 11, 8, 6, 6, 14, 12, 13, 5, 14, 13, 13, 7, 5,
   15, 5, 8, 11, 14, 14, 6, 14, 6, 9, 12, 9, 12, 5, 15, 8,
   8, 5, 12, 9, 12, 5, 14, 6, 8, 13, 6, 5, 15, 13, 11, 11]

/-- Round constants of the left line, per 16-step group. -/
def rmdKL (j : Nat) : Nat :=
  if j < 16 then 0
  else if j < 32 then 0x5a827999
  else if j < 48 then 0x6ed9eba1
  else if j < 64 then 0x8f1bbcdc
  else 0xa953fd4e

/-- Round constants of the right line, per 16-step group. -/
def rmdKR (j : Nat) : Nat :=
  if j < 16 then 0x50a28be6
  else if j < 32 then 0x5c4dd124
  else if j < 48 then 0x6d703ef3
  else if j < 64 then 0x7a6d76e9
  else 0

/-- The five-word RIPEMD-160 chaining state. -/
structure Rmd5 where
  a : Nat
  b : Nat
  c : Nat
  d : Nat
  e : Nat
deriving Repr, DecidableEq

/-- One step of one RIPEMD-160 line; fj is the selection value already
computed for this step. -/
def rmdStep (st : Rmd5) (fj x k s : Nat) : Rmd5 :=
  let t := w32 (rotl32 s (w32 (st.a + fj + x + k)) + st.e)
  ⟨st.e, t, st.b, rotl32 10 st.c, st.d⟩

/-- Run one full 80-step line over a 16-word block.  rev is true for the
right line, whose selection functions run in reverse order. -/
def rmdLine (ws : List Nat) (rev : Bool) (ro so : List Nat) (kf : Nat → Nat)
    (st : Rmd5) : Rmd5 :=
  (List.range 80).foldl
    (fun s j =>
      let jf := if rev then 79 - j else j
      rmdStep s (rmdF jf s.b s.c s.d) (ws.getD (ro.getD j 0) 0) (kf j)
        (so.getD j 0))
    st

/-- Compress one 64-byte block into the RIPEMD-160 state. -/
def rmdCompress (st : Rmd5) (block : List Nat) : Rmd5 :=
  let ws := toWordsLE block
  let l := rmdLine ws false rmdRL rmdSL rmdKL st
  let r := rmdLine ws true rmdRR rmdSR rmdKR st
  ⟨w32 (st.b + l.c + r.d), w32 (st.c + l.d + r.e), w32 (st.d + l.e + r.a),
   w32 (st.e + l.a + r.b), w32 (st.a + l.b + r.c)⟩

/-- The MD-style padding with a little-endian 64-bit bit length. -/
def rmdPad (msg : List Nat) : List Nat :=
  msg ++ 128 :: List.replicate ((119 - msg.length % 64) % 64) 0
      ++ (int2Hex (8 * (msg.length : Int))).reverse

/-- RIPEMD-160 of a byte list, as 20 bytes. -/
def ripemd160 (msg : List Nat) : List Nat :=
  let padded := rmdPad msg
  let st := (chunks64 (padded.length + 1) padded).foldl rmdCompress
    ⟨0x67452301, 0xefcdab89, 0x98badcfe, 0x10325476, 0xc3d2e1f0⟩
  wordBytesLE st.a ++ wordBytesLE st.b ++ wordBytesLE st.c
    ++ wordBytesLE st.d ++ wordBytesLE st.e

/-- RIPEMD-160 of the empty message, against the published test vector. -/
theorem ripemd160_nil_vector :
    ripemd160 [] =
      [156, 17, 133, 165, 197, 233, 252, 84, 97, 40, 8, 151, 126, 232, 245, 72,
       178, 37, 141, 49] := by
  decide

/-- RIPEMD-160 of the three bytes of the string abc, against the published
test vector. -/
theorem ripemd160_abc_vector :
    ripemd160 [97, 98, 99] =
      [142, 178, 8, 247, 224, 93, 152, 122, 155, 4, 74, 142, 152, 198, 176, 135,
       241, 90, 11, 252] := by
  decide

/-! ## Base58 (utils/base58.go)

The Go file iterates with a range loop over the input slice in both the
encoder (to translate leading zero bytes) and the decoder (to count them),
but binds the loop variable to the byte INDEX, not the byte value.  The
condition index == 0x00 therefore holds exactly once for any non-empty
input: the encoder prepends exactly one alphabet[0] character whatever the
input, and the decoder strips exactly one leading character and prepends
exactly one zero byte.  The definitions below reproduce that behaviour.
-/

/-- The base58 alphabet as ASCII codes (digits 1-9, upper case without I and
O, lower case without l). -/
def alphabet : List Nat :=
  [49, 50, 51, 52, 53, 54, 55, 56, 57,
   65, 66, 67, 68, 69, 70, 71, 72, 74, 75, 76, 77, 78, 80, 81, 82, 83, 84,
   85, 86, 87, 88, 89, 90,
   97, 98, 99, 100, 101, 102, 103, 104, 105, 106, 107, 109, 110, 111, 112,
   113, 114, 115, 116, 117, 118, 119, 120, 121, 122]

/-- bytes.IndexByte over the alphabet: the index of b, or -1 if absent. -/
def alphaIdx (b : Nat) : Int :=
  match alphabet.findIdx? (fun a => a = b) with
  | some i => (i : Int)
  | none => -1

/-- utils.Base58Encoding.  The big.Int division loop produces the base-58
digits least significant first and is then reversed; the faulty range loop
prepends one alphabet[0] for any non-empty input. -/
def base58Encoding (input : List Nat) : List Nat :=
  let x := beNat input
  let encoded := ((digitsLE 58 x x).map (fun d => alphabet.getD d 0)).reverse
  if input.isEmpty then encoded else alphabet.getD 0 0 :: encoded

/-- utils.Base58Decoding.  The faulty range loop counts one leading zero for
any non-empty input; the remainder is read as a base-58 big integer whose
minimal bytes are prepended with that many zero bytes. -/
def base58Decoding (input : List Nat) : List Nat :=
  let zeroBytes := if input.isEmpty then 0 else 1
  let payload := input.drop zeroBytes
  let tmp : Int := payload.foldl (fun acc b => acc * 58 + alphaIdx b) 0
  List.replicate zeroBytes 0 ++ natBytes tmp.natAbs

/-! ## Wallet and addresses (core/wallet.go) -/

/-- The address version byte. -/
def versionByte : Nat := 0

/-- The checksum length in bytes. -/
def addrCheckSumLen : Nat := 4

/-- core.HashingPubKey: RIPEMD-160 of SHA-256 of the public key bytes. -/
def hashingPubKey (pubKey : List Nat) : List Nat :=
  ripemd160 (sha256 pubKey)

/-- core.getChecksum: the first 4 bytes of the double SHA-256 of the payload. -/
def getChecksum (payload : List Nat) : List Nat :=
  (sha256 (sha256 payload)).take addrCheckSumLen

/-- A wallet: an ECDSA P-256 private scalar (abstract) and the public key
bytes X.Bytes() followed by Y.Bytes(). -/
structure Wallet where
  priv : Nat
  pubKey : List Nat
deriving Repr, DecidableEq

/-- core.Wallet.GenerateAddr: base58 of version byte, pubkey hash and
checksum. -/
def generateAddr (w : Wallet) : List Nat :=
  let pubKeyHash := hashingPubKey w.pubKey
  let versionedPayload := versionByte :: pubKeyHash
  let checksum := getChecksum versionedPayload
  base58Encoding (versionedPayload ++ checksum)

/-- core.ValidateAddr.  The Go function indexes fullPayload[0] and slices
fullPayload[1 : len-4] without any length guard; when the decoded payload has
fewer than 5 bytes those operations panic, modelled as none.  No other length
check exists. -/
def validateAddr (addr : List Nat) : Option Bool :=
  let fullPayload := base58Decoding addr
  if 5 ≤ fullPayload.length then
    let actualVersion := fullPayload.getD 0 0
    let actualPubKeyHash := (fullPayload.take (fullPayload.length - addrCheckSumLen)).drop 1
    let actualChecksum := fullPayload.drop (fullPayload.length - addrCheckSumLen)
    some (actualChecksum == getChecksum (actualVersion :: actualPubKeyHash))
  else none

/-! ## Claims C7, C4, C8 -/

/-- The public key bytes X.Bytes() plus Y.Bytes() of the P-256 keypair with
private scalar d = 215 (point 215 times the standard base point).  The
RIPEMD-160 of the SHA-256 of these bytes begins with a zero byte. -/
def cexPubKey : List Nat :=
  [15, 48, 231, 78, 202, 33, 111, 255, 57, 81, 115, 7, 113, 30, 55, 193,
   109, 69, 245, 228, 62, 28, 90, 23, 216, 49, 43, 244, 116, 31, 13, 155,
   229, 241, 52, 9, 158, 22, 130, 170, 158, 15, 195, 154, 48, 94, 149, 25,
   164, 197, 64, 78, 40, 171, 9, 79, 236, 40, 224, 173, 35, 99, 240, 40]

/-- C7: the base58 round-trip fails on the single byte 0x01: decoding the
encoding yields the two bytes 0x00 0x01, because the encoder prepends one
alphabet[0] character for any non-empty input (its range loop tests the byte
index, not the byte) and the decoder symmetrically strips one character and
prepends one zero byte.  Likewise two leading zero bytes are encoded as a
single alphabet[0] character, not two. -/
theorem base58_roundtrip_fails :
    base58Decoding (base58Encoding [1]) = [0, 1] ∧
      base58Decoding (base58Encoding [1]) ≠ [1] ∧
      base58Encoding [0, 0, 5] = [49, 54] := by
  decide

/-- C4: the wallet with private scalar 215 (a genuine P-256 keypair) has a
public key hash beginning with a zero byte; the base58 round-trip drops that
byte, the recomputed checksum no longer matches, and ValidateAddr rejects the
very address GenerateAddr produced. -/
theorem validateAddr_rejects_generated_addr :
    hashingPubKey cexPubKey =
      [0, 56, 154, 158, 10, 82, 236, 15, 150, 222, 76, 98, 153, 170, 250, 3,
       9, 95, 35, 15] ∧
      validateAddr (generateAddr ⟨215, cexPubKey⟩) = some false := by
  decide

/-- For contrast with C4: on a wallet whose public key hash does not begin
with a zero byte, validation of the generated address succeeds (the empty
public key is used as a concrete sample). -/
theorem validateAddr_accepts_sample_addr :
    validateAddr (generateAddr ⟨0, []⟩) = some true := by
  decide

/-- C8 as stated is false: validating the empty string panics on an index out
of range (decoded length 0, which is less than 25, yet no false is returned),
and an address whose decoding has only 8 bytes but a matching checksum is
accepted as true. -/
theorem validateAddr_no_length_check :
    validateAddr [] = none ∧
      validateAddr
          (base58Encoding ((0 :: [7, 7, 7]) ++ getChecksum (0 :: [7, 7, 7]))) =
        some true ∧
      (base58Decoding
          (base58Encoding ((0 :: [7, 7, 7]) ++ getChecksum (0 :: [7, 7, 7])))).length
        = 8 := by
  decide

/-- Reassembling the version byte and the pubkey hash slice gives back the
leading part of the payload, for payloads of at least 5 bytes. -/
theorem getD_cons_take_drop (l : List Nat) (h5 : 5 ≤ l.length) :
    l.getD 0 0 :: (l.take (l.length - 4)).drop 1 = l.take (l.length - 4) := by
  rcases l with _ | ⟨a, t⟩
  · simp at h5
  · obtain ⟨m, hm⟩ : ∃ m, (a :: t).length - 4 = m + 1 := by
      refine ⟨(a :: t).length - 5, ?_⟩
      simp only [List.length_cons] at h5 ⊢
      omega
    rw [hm]
    simp

/-- C8 amended: ValidateAddr performs no minimum-length-25 check at all.
When the decoded payload has at least 5 bytes the result is exactly the
comparison of the stored last 4 bytes with the checksum recomputed over the
leading bytes (so any checksum mismatch yields false, whatever the length);
when the decoded payload has fewer than 5 bytes the function panics instead
of returning. -/
theorem validateAddr_characterization (addr : List Nat) :
    validateAddr addr =
      if 5 ≤ (base58Decoding addr).length then
        some
          ((base58Decoding addr).drop ((base58Decoding addr).length - 4) ==
            getChecksum
              ((base58Decoding addr).take ((base58Decoding addr).length - 4)))
      else none := by
  simp only [validateAddr, addrCheckSumLen]
  generalize base58Decoding addr = L
  by_cases h : 5 ≤ L.length
  · rw [if_pos h, if_pos h, getD_cons_take_drop _ h]
  · rw [if_neg h, if_neg h]

/-! ## Node protocol command framing (network, cmd2Bytes and bytes2Cmd) -/

/-- The fixed command length of the wire protocol. -/
def cmdLen : Nat := 12

/-- Lower bound of the accepted second byte for a given UTF-8 leading byte. -/
def accLo (b0 : Nat) : Nat :=
  if b0 = 224 then 160 else if b0 = 240 then 144 else 128

/-- Upper bound of the accepted second byte for a given UTF-8 leading byte. -/
def accHi (b0 : Nat) : Nat :=
  if b0 = 237 then 159 else if b0 = 244 then 143 else 191

/-- Whether a byte is a UTF-8 continuation byte. -/
def isCont (b : Nat) : Bool := 128 ≤ b && b < 192

/-- The sequence of (byte index, rune) pairs produced by a Go range loop over
a string, decoding UTF-8 with the error conventions of unicode/utf8: any
invalid, overlong, surrogate or truncated sequence yields the replacement
rune 65533 and advances one byte.  The first argument is recursion fuel; the
byte length of the string is always enough. -/
def utf8Runes : Nat → Nat → List Nat → List (Nat × Nat)
  | 0, _, _ => []
  | _ + 1, _, [] => []
  | fuel + 1, i, b0 :: rest =>
    if b0 < 128 then (i, b0) :: utf8Runes fuel (i + 1) rest
    else if b0 < 194 then (i, 65533) :: utf8Runes fuel (i + 1) rest
    else if b0 < 224 then
      match rest with
      | b1 :: rest1 =>
        if isCont b1 then
          (i, (b0 - 192) * 64 + (b1 - 128)) :: utf8Runes fuel (i + 2) rest1
        else (i, 65533) :: utf8Runes fuel (i + 1) rest
      | [] => (i, 65533) :: utf8Runes fuel (i + 1) rest
    else if b0 < 240 then
      match rest with
      | b1 :: b2 :: rest2 =>
        if accLo b0 ≤ b1 && b1 ≤ accHi b0 && isCont b2 then
          (i, (b0 - 224) * 4096 + (b1 - 128) * 64 + (b2 - 128))
            :: utf8Runes fuel (i + 3) rest2
        else (i, 65533) :: utf8Runes fuel (i + 1) rest
      | _ => (i, 65533) :: utf8Runes fuel (i + 1) rest
    else if b0 < 245 then
      match rest with
      | b1 :: b2 :: b3 :: rest3 =>
        if accLo b0 ≤ b1 && b1 ≤ accHi b0 && isCont b2 && isCont b3 then
          (i, (b0 - 240) * 262144 + (b1 - 128) * 4096 + (b2 - 128) * 64 + (b3 - 128))
            :: utf8Runes fuel (i + 4) rest3
        else (i, 65533) :: utf8Runes fuel (i + 1) rest
      | _ => (i, 65533) :: utf8Runes fuel (i + 1) rest
    else (i, 65533) :: utf8Runes fuel (i + 1) rest

/-- network.cmd2Bytes: write byte(ch) at the byte index of every rune of the
command into a zero 12-byte array.  A rune starting at byte index 12 or
beyond makes the Go code panic, modelled as none. -/
def cmd2Bytes (cmd : List Nat) : Option (List Nat) :=
  (utf8Runes cmd.length 0 cmd).foldl
    (fun acc p =>
      match acc with
      | none => none
      | some arr => if p.1 < cmdLen then some (arr.set p.1 (p.2 % 256)) else none)
    (some (List.replicate cmdLen 0))

/-- network.bytes2Cmd: keep exactly the non-zero bytes. -/
def bytes2Cmd (byteChars : List Nat) : List Nat :=
  byteChars.filter (fun b => b != 0)

/-- A Go range loop over an all-ASCII string enumerates its bytes with
consecutive indices. -/
theorem utf8Runes_ascii (cmd : List Nat) :
    ∀ fuel i, cmd.length ≤ fuel → (∀ b ∈ cmd, b < 128) →
      utf8Runes fuel i cmd = cmd.enumFrom i := by
  induction cmd with
  | nil =>
    intro fuel i _ _
    cases fuel <;> rfl
  | cons b rest ih =>
    intro fuel i hf hb
    match fuel, hf with
    | f + 1, hf =>
      have hb0 : b < 128 := hb b (by simp)
      simp only [utf8Runes, if_pos hb0, List.enumFrom_cons]
      rw [ih f (i + 1) (by simpa using hf) (fun x hx => hb x (by simp [hx]))]

/-- Folding the write loop of cmd2Bytes over the enumeration of an in-range
byte list overwrites the corresponding segment of the array. -/
theorem foldl_set_enum (cmd : List Nat) :
    ∀ (i : Nat) (arr : List Nat), arr.length = cmdLen → i + cmd.length ≤ cmdLen →
      (∀ b ∈ cmd, b < 256) →
      (cmd.enumFrom i).foldl
        (fun acc p =>
          match acc with
          | none => none
          | some arr => if p.1 < cmdLen then some (arr.set p.1 (p.2 % 256)) else none)
        (some arr) =
      some (arr.take i ++ cmd ++ arr.drop (i + cmd.length)) := by
  induction cmd with
  | nil =>
    intro i arr hlen hle _
    simp [List.take_append_drop]
  | cons b rest ih =>
    intro i arr hlen hle hb
    have hi : i < cmdLen := by
      simp only [List.length_cons] at hle
      omega
    have hblt : b < 256 := (hb b (by simp))
    have hmod : b % 256 = b := Nat.mod_eq_of_lt hblt
    simp only [List.enumFrom_cons, List.foldl_cons, if_pos hi, hmod]
    rw [ih (i + 1) (arr.set i b) (by simpa using hlen)
      (by simp only [List.length_cons] at hle; omega)
      (fun x hx => hb x (by simp [hx]))]
    congr 1
    have hset : arr.set i b = arr.take i ++ b :: arr.drop (i + 1) :=
      List.set_eq_take_cons_drop b (by omega)
    rw [hset]
    have htk : (arr.take i).length = i := List.length_take_of_le (by omega)
    have h1 : (arr.take i ++ b :: arr.drop (i + 1)).take (i + 1)
        = arr.take i ++ [b] := by
      have h' := @List.take_append _ (arr.take i) (b :: arr.drop (i + 1)) 1
      rw [htk] at h'
      simpa using h'
    have h2 : (arr.take i ++ b :: arr.drop (i + 1)).drop (i + 1 + rest.length)
        = arr.drop (i + 1 + rest.length) := by
      have h' := @List.drop_append _ (arr.take i) (b :: arr.drop (i + 1)) (1 + rest.length)
      rw [htk] at h'
      have harith : i + (1 + rest.length) = i + 1 + rest.length := by omega
      rw [harith] at h'
      rw [h']
      have hd : (1 + rest.length) = rest.length + 1 := by omega
      rw [hd, List.drop_succ_cons, List.drop_drop]
    rw [h1, h2]
    have harith2 : i + (b :: rest).length = i + 1 + rest.length := by
      simp only [List.length_cons]
      omega
    rw [harith2]
    simp

/-- C10 as stated is false for non-ASCII commands: the two bytes 0xC3 0xA9
(a valid two-byte UTF-8 rune) contain no zero byte and have length at most
12, yet cmd2Bytes writes the single truncated byte 0xE9 at index 0 (a Go
range loop iterates runes, not bytes) and the round trip loses the encoding. -/
theorem cmd2Bytes_nonascii_failure :
    cmd2Bytes [195, 169] = some [233, 0, 0, 0, 0, 0, 0, 0, 0, 0, 0, 0] ∧
      bytes2Cmd [233, 0, 0, 0, 0, 0, 0, 0, 0, 0, 0, 0] = [233] ∧
      ([195, 169] : List Nat).length ≤ cmdLen ∧
      (∀ b ∈ ([195, 169] : List Nat), b ≠ 0) ∧
      bytes2Cmd [233, 0, 0, 0, 0, 0, 0, 0, 0, 0, 0, 0] ≠ [195, 169] := by
  decide

/-- C10 amended: restricted to ASCII bytes.  A command of at most 12 non-zero
ASCII bytes is laid out as itself padded with zeros on the right to 12 bytes,
and bytes2Cmd restores it; a command containing a zero byte never round-trips,
because bytes2Cmd drops every zero byte. -/
theorem cmd_roundtrip (cmd : List Nat) (hlen : cmd.length ≤ cmdLen) :
    ((∀ b ∈ cmd, b ≠ 0 ∧ b < 128) →
      cmd2Bytes cmd = some (cmd ++ List.replicate (cmdLen - cmd.length) 0) ∧
        bytes2Cmd (cmd ++ List.replicate (cmdLen - cmd.length) 0) = cmd) ∧
      (0 ∈ cmd → ∀ out, cmd2Bytes cmd = some out → bytes2Cmd out ≠ cmd) := by
  constructor
  · intro hb
    constructor
    · unfold cmd2Bytes
      rw [utf8Runes_ascii cmd cmd.length 0 le_rfl (fun b h => (hb b h).2)]
      have hf := foldl_set_enum cmd 0 (List.replicate cmdLen 0) (by simp)
        (by simpa using hlen)
        (fun b h => lt_trans (hb b h).2 (by norm_num))
      simpa using hf
    · unfold bytes2Cmd
      rw [List.filter_append]
      have h1 : cmd.filter (fun b => b != 0) = cmd :=
        List.filter_eq_self.mpr (fun b h => by simpa using (hb b h).1)
      have h2 : (List.replicate (cmdLen - cmd.length) 0).filter (fun b => b != 0)
          = [] := by
        simp
      rw [h1, h2, List.append_nil]
  · intro h0 out hout heq
    have hmem : (0 : Nat) ∈ bytes2Cmd out := heq ▸ h0
    unfold bytes2Cmd at hmem
    have := List.of_mem_filter hmem
    simp at this

/-- Witness for the amended C10: the version command round-trips, and the
one-byte zero command does not. -/
theorem cmd_roundtrip_witness :
    (cmd2Bytes [118, 101, 114, 115, 105, 111, 110] =
        some [118, 101, 114, 115, 105, 111, 110, 0, 0, 0, 0, 0] ∧
      bytes2Cmd [118, 101, 114, 115, 105, 111, 110, 0, 0, 0, 0, 0] =
        [118, 101, 114, 115, 105, 111, 110]) ∧
      bytes2Cmd [0, 0, 0, 0, 0, 0, 0, 0, 0, 0, 0, 0] ≠ [0] :=
  ⟨(cmd_roundtrip [118, 101, 114, 115, 105, 111, 110] (by decide)).1 (by decide),
   (cmd_roundtrip [0] (by decide)).2 (by decide) [0, 0, 0, 0, 0, 0, 0, 0, 0, 0, 0, 0]
     (by decide)⟩

/-! ## Transaction model (part_005 of the sources: transaction.go)

Amounts are float64 in Go and are modelled as rationals, following the data
model of the spec (non-negative rational amount).  Hex encoding and decoding
of transaction ids cancel (hex.DecodeString after hex.EncodeToString), so
map keys are kept as raw id bytes.  The gob serialization composed with
SHA-256 (Transaction.Hashing), the printf rendering that produces the signed
digest, and the ECDSA primitive are abstracted as the fields of CryptoPrims;
the nil slice and the empty slice are both modelled as the empty list.
-/

/-- A transaction input (TxInput): referenced transaction id, referenced
output index (-1 for a coinbase), signature bytes and public key bytes. -/
structure TxInput where
  txId : List Nat
  voutIdx : Int
  signature : List Nat
  pubKey : List Nat
deriving Repr, DecidableEq, Inhabited

/-- A transaction output (TxOutput): amount and the receiver's pubkey hash. -/
structure TxOutput where
  value : ℚ
  pubKeyHash : List Nat
deriving Repr, DecidableEq, Inhabited

/-- A transaction: id, inputs, outputs. -/
structure Transaction where
  id : List Nat
  vin : List TxInput
  vout : List TxOutput
deriving Repr, DecidableEq, Inhabited

/-- The abstracted cryptographic and serialization primitives: txHash is
SHA-256 of the gob serialization (Transaction.Hashing with the id cleared
beforehand by the caller); render is the byte string Sprintf produces from a
transaction for signing; ecdsaSign maps a private scalar and a digest to the
r.Bytes() plus s.Bytes() signature (the source draws randomness here, which a
refutation-free embedding may determinize); ecdsaVerify takes public key
bytes, digest and signature; hashAllTxs is the Merkle root of the gob
serializations of a block's transactions. -/
structure CryptoPrims where
  txHash : Transaction → List Nat
  render : Transaction → List Nat
  ecdsaSign : Nat → List Nat → List Nat
  ecdsaVerify : List Nat → List Nat → List Nat → Bool
  hashAllTxs : List Transaction → List Nat

/-- Transaction.IsCoinbaseTx: exactly one input, empty previous id, index -1. -/
def isCoinbaseTx (tx : Transaction) : Bool :=
  match tx.vin with
  | [i] => i.txId.isEmpty && i.voutIdx == -1
  | _ => false

/-- Transaction.Hashing: hash of the transaction with its id cleared. -/
def hashing (cp : CryptoPrims) (tx : Transaction) : List Nat :=
  cp.txHash { tx with id := [] }

/-- Transaction.Copy: same id and outputs, inputs with signature and public
key dropped. -/
def copyTx (tx : Transaction) : Transaction :=
  { id := tx.id,
    vin := tx.vin.map (fun i =>
      { txId := i.txId, voutIdx := i.voutIdx, signature := [], pubKey := [] }),
    vout := tx.vout.map (fun o => { value := o.value, pubKeyHash := o.pubKeyHash }) }

/-- Replace the element at an index by the image under f (out of range is
the identity); the Go assignments to copiedTx.Vin and tx.Vin at one index. -/
def modifyNth {α : Type} (f : α → α) : Nat → List α → List α
  | _, [] => []
  | 0, a :: t => f a :: t
  | n + 1, a :: t => a :: modifyNth f n t

/-- The previous-transactions map, keyed by raw transaction id bytes. -/
abbrev PrevMap := List (List Nat × Transaction)

/-- Go map indexing prevTxs[id]; first binding wins (all bindings of one key
are equal in getPrevTxs). -/
def lookupTx (m : PrevMap) (k : List Nat) : Option Transaction :=
  match m.find? (fun p => p.1 == k) with
  | some p => some p.2
  | none => none

/-- prevTx.Vout[idx] with the panic on a negative or out-of-range index
modelled as none. -/
def outAt (t : Transaction) (idx : Int) : Option TxOutput :=
  if idx < 0 then none else t.vout.get? idx.toNat

/-- The guard loop at the top of Sign and Verify: every input must resolve
to a previous transaction whose id is set (the Go code reads the zero value
of missing keys and panics when Id is nil). -/
def prevCheck (m : PrevMap) (tx : Transaction) : Bool :=
  tx.vin.all (fun i =>
    match lookupTx m i.txId with
    | some p => !p.id.isEmpty
    | none => false)

/-- The loop body of Transaction.Sign.  The first transaction argument is
the evolving copiedTx, the second the transaction being signed; the index
list enumerates copiedTx.Vin.  Any failed lookup or out-of-range output
index is a Go panic, modelled as none. -/
def signLoop (cp : CryptoPrims) (sk : Nat) (prevTxs : PrevMap) :
    List Nat → Transaction → Transaction → Option Transaction
  | [], _, tx => some tx
  | i :: rest, copied, tx =>
    match copied.vin.get? i with
    | none => none
    | some cin =>
      match lookupTx prevTxs cin.txId with
      | none => none
      | some prevTx =>
        let copied1 :=
          { copied with vin := modifyNth (fun inp => { inp with signature := [] }) i copied.vin }
        match outAt prevTx cin.voutIdx with
        | none => none
        | some prevOut =>
          let copied2 :=
            { copied1 with vin := modifyNth (fun inp => { inp with pubKey := prevOut.pubKeyHash }) i copied1.vin }
          let sig := cp.ecdsaSign sk (cp.render copied2)
          let tx1 :=
            { tx with vin := modifyNth (fun inp => { inp with signature := sig }) i tx.vin }
          let copied3 :=
            { copied2 with vin := modifyNth (fun inp => { inp with pubKey := [] }) i copied2.vin }
          signLoop cp sk prevTxs rest copied3 tx1

/-- Transaction.Sign: coinbase transactions return unchanged; otherwise the
previous transactions are checked and every input is signed in turn over the
trimmed copy. -/
def sign (cp : CryptoPrims) (sk : Nat) (prevTxs : PrevMap) (tx : Transaction) :
    Option Transaction :=
  if isCoinbaseTx tx then some tx
  else if prevCheck prevTxs tx then
    signLoop cp sk prevTxs (List.range tx.vin.length) (copyTx tx) tx
  else none

/-- The loop body of Transaction.Verify, mirroring signLoop with the checks
of ecdsa.Verify; a failed check returns false immediately. -/
def verifyLoop (cp : CryptoPrims) (prevTxs : PrevMap) :
    List Nat → Transaction → Transaction → Option Bool
  | [], _, _ => some true
  | i :: rest, copied, tx =>
    match tx.vin.get? i with
    | none => none
    | some tin =>
      match lookupTx prevTxs tin.txId with
      | none => none
      | some prevTx =>
        let copied1 :=
          { copied with vin := modifyNth (fun inp => { inp with signature := [] }) i copied.vin }
        match outAt prevTx tin.voutIdx with
        | none => none
        | some prevOut =>
          let copied2 :=
            { copied1 with vin := modifyNth (fun inp => { inp with pubKey := prevOut.pubKeyHash }) i copied1.vin }
          if cp.ecdsaVerify tin.pubKey (cp.render copied2) tin.signature then
            verifyLoop cp prevTxs rest
              { copied2 with vin := modifyNth (fun inp => { inp with pubKey := [] }) i copied2.vin }
              tx
          else some false

/-- Transaction.Verify: coinbase transactions are true; otherwise every
input's recorded signature is checked against the recomputed digest. -/
def verify (cp : CryptoPrims) (prevTxs : PrevMap) (tx : Transaction) : Option Bool :=
  if isCoinbaseTx tx then some true
  else if prevCheck prevTxs tx then
    verifyLoop cp prevTxs (List.range tx.vin.length) (copyTx tx) tx
  else none

/-! ## Blocks and proof of work (core/block.go, core/pow.go) -/

/-- A block: header fields and the transaction list. -/
structure Block where
  timeStamp : Int
  prevBlockHash : List Nat
  hash : List Nat
  nonce : Nat
  transactions : List Transaction
deriving Repr, DecidableEq, Inhabited

/-- The difficulty constant of pow.go. -/
def targetBits : Nat := 4

/-- The nonce bound math.MaxInt64. -/
def maxNonce : Nat := 9223372036854775807

/-- The proof-of-work target 1 shifted left by 256 - targetBits. -/
def powTarget : Nat := 2 ^ (256 - targetBits)

/-- ProofOfWork.prepareData: previous hash, Merkle root of the transactions,
and the big-endian timestamp, difficulty and nonce. -/
def prepareData (cp : CryptoPrims) (b : Block) (nonce : Nat) : List Nat :=
  b.prevBlockHash ++ cp.hashAllTxs b.transactions ++ int2Hex b.timeStamp
    ++ int2Hex (targetBits : Int) ++ int2Hex (nonce : Int)

/-- The search loop of ProofOfWork.Run.  The fuel argument is the number of
remaining trials (maxNonce minus the current nonce); the last argument holds
the hash variable of the Go code, returned as is when the bound is reached. -/
def powRunAux (cp : CryptoPrims) (b : Block) :
    Nat → Nat → List Nat → Nat × List Nat
  | 0, nonce, lastHash => (nonce, lastHash)
  | fuel + 1, nonce, _ =>
    let hash := sha256 (prepareData cp b nonce)
    if beNat hash < powTarget then (nonce, hash)
    else powRunAux cp b fuel (nonce + 1) hash

/-- ProofOfWork.Run: scan nonces from 0 while nonce is below maxNonce. -/
def powRun (cp : CryptoPrims) (b : Block) : Nat × List Nat :=
  powRunAux cp b maxNonce 0 (List.replicate 32 0)

/-- ProofOfWork.Validate: recompute the hash at the stored nonce and compare
with the target. -/
def powValidate (cp : CryptoPrims) (b : Block) : Bool :=
  beNat (sha256 (prepareData cp b b.nonce)) < powTarget

/-- core.NewBlock: stamp the time, run the proof of work, store nonce and
hash.  The creation time is passed explicitly. -/
def newBlock (cp : CryptoPrims) (now : Int) (txs : List Transaction)
    (prevBlockHash : List Nat) : Block :=
  let b0 : Block := ⟨now, prevBlockHash, [], 0, txs⟩
  let r := powRun cp b0
  { b0 with hash := r.2, nonce := r.1 }

/-! ## The chain store (core/blockchain.go)

The blocks bucket plus the reverse iterator are modelled by the list of
blocks in iteration order: the head is the tip, the last element is the
genesis block (whose prevBlockHash is empty and where IterOnChain stops);
each block's prevBlockHash is the hash of the next list entry.  tipStored is
the value at the distinguished key l of the bucket, tipMem the in-memory
Tip field of the BlockChain struct.
-/

/-- The chain: the iterator sequence of blocks (tip first) together with the
stored and the in-memory tip pointers. -/
structure BlockChain where
  blocks : List Block
  tipStored : List Nat
  tipMem : List Nat
deriving Repr, DecidableEq

/-- BlockChain.FindTx: scan blocks from the tip, then transactions in order,
for the first transaction with the given id; none models the not-found
error. -/
def findTx (chain : BlockChain) (txId : List Nat) : Option Transaction :=
  chain.blocks.findSome? (fun b => b.transactions.find? (fun t => t.id == txId))

/-- BlockChain.getPrevTxs: look up the previous transaction of every input,
keyed by the found transaction's id; a missing transaction is a panic,
modelled none. -/
def getPrevTxs (chain : BlockChain) (tx : Transaction) : Option PrevMap :=
  tx.vin.foldr
    (fun i acc =>
      match acc, findTx chain i.txId with
      | some m, some p => some ((p.id, p) :: m)
      | _, _ => none)
    (some [])

/-- BlockChain.SignTx. -/
def signTx (cp : CryptoPrims) (sk : Nat) (chain : BlockChain) (tx : Transaction) :
    Option Transaction :=
  (getPrevTxs chain tx).bind (fun m => sign cp sk m tx)

/-- BlockChain.VerifyTx: coinbase short-circuits to true. -/
def verifyTx (cp : CryptoPrims) (chain : BlockChain) (tx : Transaction) : Option Bool :=
  if isCoinbaseTx tx then some true
  else (getPrevTxs chain tx).bind (fun m => verify cp m tx)

/-- The failure modes of MineBlock: the invalid-transaction panic, or any
other panic encountered while verifying (a missing previous transaction or a
malformed input index). -/
inductive MineErr where
  | invalidTx
  | panicked
deriving Repr, DecidableEq

/-- BlockChain.MineBlock: verify all transactions, read the stored tip hash,
mine a block on top of it, store it and advance both tip pointers. -/
def mineBlock (cp : CryptoPrims) (now : Int) (chain : BlockChain)
    (txs : List Transaction) : Except MineErr (BlockChain × Block) :=
  match txs.findSome? (fun tx =>
    match verifyTx cp chain tx with
    | some true => none
    | some false => some MineErr.invalidTx
    | none => some MineErr.panicked) with
  | some e => .error e
  | none =>
    let lastHash := chain.tipStored
    let b := newBlock cp now txs lastHash
    .ok (⟨b :: chain.blocks, b.hash, b.hash⟩, b)

/-! ## The UTXO index (core/utxo.go) -/

/-- The ChainState bucket: transaction id keys to unspent output lists. -/
abbrev Bucket := List (List Nat × List TxOutput)

/-- bucket.Get, with nil for a missing key modelled as none (DeserializeOutputs
panics on nil input). -/
def bucketGet (bkt : Bucket) (k : List Nat) : Option (List TxOutput) :=
  match bkt.find? (fun p => p.1 == k) with
  | some p => some p.2
  | none => none

/-- bucket.Put: replace the binding if present, append otherwise. -/
def bucketPut : Bucket → List Nat → List TxOutput → Bucket
  | [], k, v => [(k, v)]
  | (k0, v0) :: rest, k, v =>
    if k0 == k then (k0, v) :: rest else (k0, v0) :: bucketPut rest k v

/-- bucket.Delete. -/
def bucketDel (bkt : Bucket) (k : List Nat) : Bucket :=
  bkt.filter (fun p => !(p.1 == k))

/-- TxOutput.IsLockedWithKey. -/
def isLockedWithKey (o : TxOutput) (pubKeyHash : List Nat) : Bool :=
  o.pubKeyHash == pubKeyHash

/-- The output step of FindSpendableOutputs: an output locked to the key is
selected, and its value accumulated, while the accumulator is still below
the requested amount. -/
def spendStep (pubKeyHash : List Nat) (amount : ℚ) (st2 : ℚ × List Nat)
    (p : Nat × TxOutput) : ℚ × List Nat :=
  if isLockedWithKey p.2 pubKeyHash && decide (st2.1 < amount) then
    (st2.1 + p.2.value, st2.2 ++ [p.1])
  else st2

/-- The per-entry step of FindSpendableOutputs: scan the outputs of one
bucket entry and record the selected indices under the entry key (the Go map
gains a binding only when at least one index is appended). -/
def spendEntryStep (pubKeyHash : List Nat) (amount : ℚ)
    (st : ℚ × List (List Nat × List Nat)) (entry : List Nat × List TxOutput) :
    ℚ × List (List Nat × List Nat) :=
  let inner := entry.2.enum.foldl (spendStep pubKeyHash amount) (st.1, [])
  (inner.1, if inner.2.isEmpty then st.2 else st.2 ++ [(entry.1, inner.2)])

/-- UTXOSet.FindSpendableOutputs: cursor scan over the bucket; every output
locked to the key while the accumulator is still below the requested amount
is selected; the map of selected index lists carries only non-empty lists. -/
def findSpendableOutputs (bkt : Bucket) (pubKeyHash : List Nat) (amount : ℚ) :
    ℚ × List (List Nat × List Nat) :=
  bkt.foldl (spendEntryStep pubKeyHash amount) (0, [])

/-- UTXOSet.FindUTXO: all outputs in the bucket locked to the key, in scan
order. -/
def findUTXO (bkt : Bucket) (pubKeyHash : List Nat) : List TxOutput :=
  bkt.foldl
    (fun acc entry => acc ++ entry.2.filter (fun o => isLockedWithKey o pubKeyHash))
    []

/-- The spent-outputs map of BlockChain.FindUTXO. -/
abbrev SpentMap := List (List Nat × List Int)

/-- Go map append semantics on the spent map. -/
def spentAdd (m : SpentMap) (k : List Nat) (idx : Int) : SpentMap :=
  match m.find? (fun p => p.1 == k) with
  | some p =>
    m.map (fun q => if q.1 == k then (q.1, p.2 ++ [idx]) else q)
  | none => m ++ [(k, [idx])]

/-- Lookup in the spent map (a missing key reads the empty list). -/
def spentGet (m : SpentMap) (k : List Nat) : List Int :=
  match m.find? (fun p => p.1 == k) with
  | some p => p.2
  | none => []

/-- One transaction step of BlockChain.FindUTXO: keep the outputs whose index
is not recorded as spent, then record every input of a non-coinbase
transaction as spent. -/
def findUTXOTxStep (st : Bucket × SpentMap) (tx : Transaction) : Bucket × SpentMap :=
  let kept := (tx.vout.enum.filter
    (fun p => !((spentGet st.2 tx.id).contains (p.1 : Int)))).map (fun p => p.2)
  let utxo1 := if kept.isEmpty then st.1
    else bucketPut st.1 tx.id ((bucketGet st.1 tx.id).getD [] ++ kept)
  let spent1 :=
    if isCoinbaseTx tx then st.2
    else tx.vin.foldl (fun m i => spentAdd m i.txId i.voutIdx) st.2
  (utxo1, spent1)

/-- BlockChain.FindUTXO: scan blocks from the tip and collect the unspent
outputs of every transaction, as a map from transaction id to output list
(entries are created only when an output is emitted, hence never empty). -/
def chainFindUTXO (chain : BlockChain) : Bucket :=
  (chain.blocks.foldl
    (fun st b => b.transactions.foldl findUTXOTxStep st)
    ([], [])).1

/-- UTXOSet.Rebuild: drop the bucket and write the map of chainFindUTXO. -/
def rebuild (chain : BlockChain) : Bucket :=
  chainFindUTXO chain

/-- The inner input loop of UTXOSet.Update: prune each referenced stored
output list by the position given in the input, deleting the binding when
nothing remains.  Reading a missing key panics in DeserializeOutputs,
modelled none. -/
def updateInputs (bkt : Bucket) : List TxInput → Option Bucket
  | [] => some bkt
  | i :: rest =>
    match bucketGet bkt i.txId with
    | none => none
    | some outs =>
      let updated := (outs.enum.filter (fun p => !((p.1 : Int) == i.voutIdx))).map
        (fun p => p.2)
      let bkt1 := if updated.isEmpty then bucketDel bkt i.txId
        else bucketPut bkt i.txId updated
      updateInputs bkt1 rest

/-- The per-transaction step of UTXOSet.Update. -/
def updateTxStep (bkt : Bucket) (tx : Transaction) : Option Bucket :=
  (if isCoinbaseTx tx then some bkt else updateInputs bkt tx.vin).map
    (fun bkt1 => bucketPut bkt1 tx.id tx.vout)

/-- The recursion of UTXOSet.Update over the block's transactions. -/
def updateTxs (bkt : Bucket) : List Transaction → Option Bucket
  | [] => some bkt
  | tx :: rest => (updateTxStep bkt tx).bind (fun bkt1 => updateTxs bkt1 rest)

/-- UTXOSet.Update on a newly mined tip block. -/
def updateBucket (block : Block) (bkt : Bucket) : Option Bucket :=
  updateTxs bkt block.transactions

/-! ## Creating a UTXO transaction (part_005, NewUTXOTx) -/

/-- The UTXO set: a handle to the chain plus the content of the ChainState
bucket it reads. -/
structure UTXOSet where
  chain : BlockChain
  bucket : Bucket

/-- core.NewTxOutput composed with TxOutput.Lock: decode the address and take
the pubkey-hash slice between the version byte and the 4-byte checksum;
a decoded payload shorter than 5 bytes makes the slice bounds panic. -/
def newTxOutput (value : ℚ) (addr : List Nat) : Option TxOutput :=
  let fullPayload := base58Decoding addr
  if 5 ≤ fullPayload.length then
    some ⟨value, (fullPayload.take (fullPayload.length - 4)).drop 1⟩
  else none

/-- Wallet.GetAddr as called by NewUTXOTx.  The wallet file that defines it
is not among the provided sources; modelled from the spec, section 3 and
section 4.2: the address of a wallet is the base58 encoding of the versioned
pubkey hash with its checksum, identical to GenerateAddr of core/wallet.go. -/
def getAddr (w : Wallet) : List Nat :=
  generateAddr w

/-- part_005 NewUTXOTx: select spendable outputs of the sender, build one
input per selected pair carrying the sender's public key, one output paying
the destination and a change output when the selection overshoots, set the
id, and sign all inputs against the chain backing the UTXO set.  Any Go
panic (insufficient funds, bad address, missing previous transaction) is
none. -/
def newUTXOTx (cp : CryptoPrims) (w : Wallet) (dstAddr : List Nat) (amount : ℚ)
    (us : UTXOSet) : Option Transaction :=
  let pubKeyHash := hashingPubKey w.pubKey
  let r := findSpendableOutputs us.bucket pubKeyHash amount
  if r.1 < amount then none
  else
    let vin := r.2.flatMap (fun p =>
      p.2.map (fun idx => TxInput.mk p.1 (Int.ofNat idx) [] w.pubKey))
    (newTxOutput amount dstAddr).bind (fun out0 =>
      (if amount < r.1 then
        (newTxOutput (r.1 - amount) (getAddr w)).map (fun c => [out0, c])
      else some [out0]).bind (fun vout =>
        let tx0 : Transaction := ⟨[], vin, vout⟩
        let tx1 := { tx0 with id := hashing cp tx0 }
        signTx cp w.priv us.chain tx1))

/-- The coinbase reward constant of part_005. -/
def coinbaseReward : ℚ := 666

/-- A deterministic flat encoding of a byte list, used by the concrete
instantiation of the abstract primitives. -/
def encList (l : List Nat) : List Nat :=
  l.length :: l

/-- A deterministic flat encoding of an integer. -/
def encInt (i : Int) : List Nat :=
  [if i < 0 then 1 else 0, i.natAbs]

/-- A deterministic flat encoding of a transaction, used by the concrete
instantiation of the abstract primitives. -/
def encTx (tx : Transaction) : List Nat :=
  encList tx.id
    ++ tx.vin.length ::
      tx.vin.flatMap (fun i =>
        encList i.txId ++ encInt i.voutIdx ++ encList i.signature ++ encList i.pubKey)
    ++ tx.vout.length ::
      tx.vout.flatMap (fun o =>
        o.value.num.natAbs :: o.value.den :: encList o.pubKeyHash)

/-- A concrete instantiation of the abstract primitives, used to evaluate the
model on closed inputs: hashing and rendering are flat encodings with
distinct tags, and the signature scheme signs a digest by prefixing the
private scalar, which verification checks against the head of the public key
bytes (so the public key of the scalar sk is the one-element list sk). -/
def toyPrims : CryptoPrims :=
  { txHash := fun tx => 7 :: encTx tx,
    render := fun tx => 9 :: encTx tx,
    ecdsaSign := fun sk d => sk :: d,
    ecdsaVerify := fun pk d s => s == pk.headD 0 :: d,
    hashAllTxs := fun txs => [txs.length] }

/-- part_005 NewCoinbaseTx with explicit coinbase data (the random-data
branch for empty data is not needed by any claim): one input from nowhere
whose pubKey field carries the data, one output paying the reward. -/
def newCoinbaseTx (cp : CryptoPrims) (dstAddr dataBytes : List Nat) :
    Option Transaction :=
  let txIn : TxInput := ⟨[], -1, [], dataBytes⟩
  (newTxOutput coinbaseReward dstAddr).map (fun out =>
    let tx : Transaction := ⟨[], [txIn], [out]⟩
    { tx with id := hashing cp tx })

/-! ## Claim C2: the incremental UTXO update against a fresh rebuild

The scenario below drives only public operations: a genesis chain is created
for a wallet, the index is rebuilt, the wallet sends itself 10 of its 666
coins (creating transaction T with an amount output and a change output),
the block is mined and the index updated, and the wallet then sends 25
coins, which makes coin selection pick both outputs of T in one transaction
S.  Mining S and updating succeeds, but Update prunes the stored output list
of T by list position while the input indices name positions of the original
output list: after removing output 0 the remaining change output sits at
position 0, so the input spending index 1 removes nothing.  The bucket keeps
a 656-coin entry for T that a fresh rebuild of the same chain does not have.
-/

/-- The sender wallet of the scenario (toy scalar 5, public key bytes 5). -/
def demoWallet : Wallet := ⟨5, [5]⟩

/-- The wallet's address, through the real hash and base58 pipeline. -/
def demoAddr : List Nat := getAddr demoWallet

/-- The genesis coinbase paying 666 to the wallet. -/
def demoCoinbase : Transaction :=
  (newCoinbaseTx toyPrims demoAddr [99]).getD default

/-- The genesis block, mined by NewBlock. -/
def demoGenesis : Block := newBlock toyPrims 0 [demoCoinbase] []

/-- The chain holding only the genesis block (CreateBlockChain). -/
def demoChain0 : BlockChain := ⟨[demoGenesis], demoGenesis.hash, demoGenesis.hash⟩

/-- The freshly rebuilt index of the genesis chain. -/
def demoBucket0 : Bucket := rebuild demoChain0

/-- T: the wallet sends itself 10, leaving outputs of 10 and 656 change. -/
def demoT : Transaction :=
  (newUTXOTx toyPrims demoWallet demoAddr 10 ⟨demoChain0, demoBucket0⟩).getD default

/-- Mining the block containing T. -/
def demoMine1 : Except MineErr (BlockChain × Block) :=
  mineBlock toyPrims 1 demoChain0 [demoT]

/-- The chain after the first mined block. -/
def demoChain1 : BlockChain :=
  match demoMine1 with
  | .ok p => p.1
  | .error _ => ⟨[], [], []⟩

/-- The first mined block. -/
def demoBlock1 : Block :=
  match demoMine1 with
  | .ok p => p.2
  | .error _ => default

/-- The index incrementally updated with the first block. -/
def demoBucket1 : Bucket := (updateBucket demoBlock1 demoBucket0).getD []

/-- S: the wallet sends 25, which selects both outputs of T. -/
def demoS : Transaction :=
  (newUTXOTx toyPrims demoWallet demoAddr 25 ⟨demoChain1, demoBucket1⟩).getD default

/-- Mining the block containing S. -/
def demoMine2 : Except MineErr (BlockChain × Block) :=
  mineBlock toyPrims 2 demoChain1 [demoS]

/-- The chain after the second mined block. -/
def demoChain2 : BlockChain :=
  match demoMine2 with
  | .ok p => p.1
  | .error _ => ⟨[], [], []⟩

/-- The second mined block. -/
def demoBlock2 : Block :=
  match demoMine2 with
  | .ok p => p.2
  | .error _ => default

/-- The index incrementally updated with the second block. -/
def demoBucket2 : Bucket := (updateBucket demoBlock2 demoBucket1).getD []

/-- C2 fails on the code: in the mined two-payment scenario every step
succeeds (both MineBlock calls verify their transactions and both Update
calls find their referenced entries, and the index started as a fresh
rebuild), the transaction S spends the outputs 0 and 1 of T, yet the updated
bucket retains the entry of T holding the 656-coin change output, while a
fresh Rebuild from the same chain has no entry for T at all: the claimed
equality of bucket content and rebuild is violated at the key T.id. -/
theorem update_bucket_differs_from_rebuild :
    demoMine1.isOk = true ∧ demoMine2.isOk = true ∧
      (updateBucket demoBlock1 demoBucket0).isSome = true ∧
      (updateBucket demoBlock2 demoBucket1).isSome = true ∧
      demoBucket0 = rebuild demoChain0 ∧
      (demoS.vin.map (fun i => (i.txId, i.voutIdx))) =
        [(demoT.id, 0), (demoT.id, 1)] ∧
      bucketGet demoBucket2 demoT.id = some [⟨656, hashingPubKey [5]⟩] ∧
      bucketGet (rebuild demoChain2) demoT.id = none := by
  decide

/-! ## Claim C6: coin selection -/

/-- The summed value of the outputs of one list locked to a key. -/
def lockedSum (outs : List TxOutput) (pubKeyHash : List Nat) : ℚ :=
  ((outs.filter (fun o => isLockedWithKey o pubKeyHash)).map (fun o => o.value)).sum

/-- The summed value of all bucket outputs locked to a key. -/
def lockedTotal (bkt : Bucket) (pubKeyHash : List Nat) : ℚ :=
  (bkt.map (fun e => lockedSum e.2 pubKeyHash)).sum

/-- The summed value of the outputs named by a selection, resolved against
the bucket. -/
def selectionSum (bkt : Bucket) (sel : List (List Nat × List Nat)) : ℚ :=
  (sel.map (fun p =>
    ((p.2.map (fun i => (((bucketGet bkt p.1).getD []).getD i default).value)).sum))).sum

/-- The inner output scan of FindSpendableOutputs: the selected indices are
appended in range, their values sum to the increase of the accumulator, a
saturated accumulator selects nothing, and a final accumulator below the
requested amount has taken every locked output. -/
theorem findSpendable_inner_spec (pubKeyHash : List Nat) (amount : ℚ)
    (outs : List TxOutput) :
    ∀ (j : Nat) (q : ℚ) (s : List Nat),
      (∃ picked : List Nat,
        (List.enumFrom j outs).foldl (spendStep pubKeyHash amount) (q, s) =
            (q + ((picked.map (fun i => (outs.getD (i - j) default).value)).sum),
              s ++ picked) ∧
          (∀ i ∈ picked, j ≤ i ∧ i - j < outs.length)) ∧
      (amount ≤ q →
        (List.enumFrom j outs).foldl (spendStep pubKeyHash amount) (q, s) = (q, s)) ∧
      (((List.enumFrom j outs).foldl (spendStep pubKeyHash amount) (q, s)).1 < amount →
        ((List.enumFrom j outs).foldl (spendStep pubKeyHash amount) (q, s)).1 =
          q + lockedSum outs pubKeyHash) := by
  induction outs with
  | nil =>
    intro j q s
    refine ⟨⟨[], by simp, by simp⟩, fun _ => rfl, fun _ => by simp [lockedSum]⟩
  | cons o rest ih =>
    intro j q s
    rw [List.enumFrom_cons, List.foldl_cons]
    by_cases hq : q < amount
    · by_cases hl : isLockedWithKey o pubKeyHash = true
      · have hguard : spendStep pubKeyHash amount (q, s) (j, o) =
            (q + o.value, s ++ [j]) := by
          simp [spendStep, hl, hq]
        rw [hguard]
        obtain ⟨⟨picked, hfold, hbound⟩, hsat, hdich⟩ := ih (j + 1) (q + o.value) (s ++ [j])
        have hlsum : lockedSum (o :: rest) pubKeyHash = o.value + lockedSum rest pubKeyHash := by
          simp [lockedSum, hl]
        have hmap : picked.map (fun i => (rest.getD (i - (j + 1)) default).value) =
            picked.map (fun i => ((o :: rest).getD (i - j) default).value) := by
          refine List.map_congr_left (fun i hi => ?_)
          have h1 : j + 1 ≤ i := (hbound i hi).1
          have h2 : i - j = (i - (j + 1)) + 1 := by omega
          rw [h2, List.getD_cons_succ]
        refine ⟨⟨j :: picked, ?_, ?_⟩, ?_, ?_⟩
        · rw [hfold, hmap]
          have hjj : j - j = 0 := Nat.sub_self j
          simp only [List.map_cons, List.sum_cons, hjj, List.getD_cons_zero,
            Prod.mk.injEq]
          constructor
          · ring
          · simp
        · intro i hi
          rcases List.mem_cons.mp hi with rfl | hi2
          · refine ⟨le_rfl, ?_⟩
            simp only [Nat.sub_self, List.length_cons]
            omega
          · obtain ⟨h1, h2⟩ := hbound i hi2
            refine ⟨by omega, ?_⟩
            simp only [List.length_cons]
            omega
        · intro hle
          exact absurd hq (not_lt.mpr hle)
        · intro hlt
          rw [hdich hlt, hlsum]
          ring
      · have hl2 : isLockedWithKey o pubKeyHash = false := by
          simpa using hl
        have hguard : spendStep pubKeyHash amount (q, s) (j, o) = (q, s) := by
          simp [spendStep, hl2]
        rw [hguard]
        obtain ⟨⟨picked, hfold, hbound⟩, hsat, hdich⟩ := ih (j + 1) q s
        have hlsum : lockedSum (o :: rest) pubKeyHash = lockedSum rest pubKeyHash := by
          simp [lockedSum, hl2]
        have hmap : picked.map (fun i => (rest.getD (i - (j + 1)) default).value) =
            picked.map (fun i => ((o :: rest).getD (i - j) default).value) := by
          refine List.map_congr_left (fun i hi => ?_)
          have h1 : j + 1 ≤ i := (hbound i hi).1
          have h2 : i - j = (i - (j + 1)) + 1 := by omega
          rw [h2, List.getD_cons_succ]
        refine ⟨⟨picked, ?_, ?_⟩, hsat, ?_⟩
        · rw [hfold, hmap]
        · intro i hi
          obtain ⟨h1, h2⟩ := hbound i hi
          refine ⟨by omega, ?_⟩
          simp only [List.length_cons]
          omega
        · intro hlt
          rw [hdich hlt, hlsum]
    · have hq2 : decide (q < amount) = false := by simpa using hq
      have hguard : spendStep pubKeyHash amount (q, s) (j, o) = (q, s) := by
        simp [spendStep, hq2]
      rw [hguard]
      obtain ⟨⟨picked, hfold, hbound⟩, hsat, hdich⟩ := ih (j + 1) q s
      have hle : amount ≤ q := not_lt.mp hq
      have hres : (List.enumFrom (j + 1) rest).foldl (spendStep pubKeyHash amount) (q, s) = (q, s) :=
        hsat hle
      refine ⟨⟨[], by simp [hres], by simp⟩, fun _ => hres, ?_⟩
      intro hlt
      rw [hres] at hlt
      simp only at hlt
      exact absurd hlt (not_lt.mpr hle)

/-- In a bucket with distinct keys, every entry is found by bucketGet. -/
theorem bucketGet_of_nodup (bkt : Bucket) (hnd : (bkt.map Prod.fst).Nodup) :
    ∀ e ∈ bkt, bucketGet bkt e.1 = some e.2 := by
  induction bkt with
  | nil => intro e he; simp at he
  | cons e0 rest ih =>
    intro e he
    rcases List.mem_cons.mp he with rfl | hmem
    · simp [bucketGet, List.find?]
    · have hne : ¬(e0.1 == e.1) = true := by
        simp only [List.map_cons, List.nodup_cons] at hnd
        intro hbeq
        have : e0.1 = e.1 := by simpa using hbeq
        exact hnd.1 (this ▸ List.mem_map_of_mem Prod.fst hmem)
      have hnd2 : (rest.map Prod.fst).Nodup := by
        simp only [List.map_cons, List.nodup_cons] at hnd
        exact hnd.2
      have := ih hnd2 e hmem
      simp only [bucketGet, List.find?] at this ⊢
      rw [Bool.eq_false_iff.mpr hne]
      exact this

/-- The bucket scan of FindSpendableOutputs, stated against any resolver g
that agrees with the scanned entries: the accumulated amount grows by the
values of the selected outputs, a saturated accumulator selects nothing, and
an unsaturated final accumulator has taken every locked output of the
bucket. -/
theorem findSpendable_outer_spec (pubKeyHash : List Nat) (amount : ℚ)
    (g : List Nat → List TxOutput) :
    ∀ (bkt : Bucket), (∀ e ∈ bkt, g e.1 = e.2) →
    ∀ (q : ℚ) (s : List (List Nat × List Nat)),
      (∃ picked,
        bkt.foldl (spendEntryStep pubKeyHash amount) (q, s) =
            (q + ((picked.map (fun p =>
              ((p.2.map (fun i => ((g p.1).getD i default).value)).sum))).sum),
              s ++ picked) ∧
          (∀ p ∈ picked, ∀ i ∈ p.2, i < (g p.1).length)) ∧
      (amount ≤ q →
        bkt.foldl (spendEntryStep pubKeyHash amount) (q, s) = (q, s)) ∧
      ((bkt.foldl (spendEntryStep pubKeyHash amount) (q, s)).1 < amount →
        (bkt.foldl (spendEntryStep pubKeyHash amount) (q, s)).1 =
          q + lockedTotal bkt pubKeyHash) := by
  intro bkt
  induction bkt with
  | nil =>
    intro _ q s
    refine ⟨⟨[], by simp, by simp⟩, fun _ => rfl, fun _ => by simp [lockedTotal]⟩
  | cons e rest ih =>
    intro hres q s
    have hge : g e.1 = e.2 := hres e (by simp)
    have hres2 : ∀ x ∈ rest, g x.1 = x.2 := fun x hx => hres x (by simp [hx])
    rw [List.foldl_cons]
    obtain ⟨⟨pickedI, hfoldI, hboundI⟩, hsatI, hdichI⟩ :=
      findSpendable_inner_spec pubKeyHash amount e.2 0 q []
    simp only [Nat.sub_zero, List.nil_append] at hfoldI hboundI
    have henum : e.2.enum = List.enumFrom 0 e.2 := rfl
    have hstep : spendEntryStep pubKeyHash amount (q, s) e =
        (q + ((pickedI.map (fun i => (e.2.getD i default).value)).sum),
          if pickedI.isEmpty then s else s ++ [(e.1, pickedI)]) := by
      simp only [spendEntryStep, henum, hfoldI]
    rw [hstep]
    set q1 : ℚ := q + ((pickedI.map (fun i => (e.2.getD i default).value)).sum) with hq1
    set s1 := if pickedI.isEmpty then s else s ++ [(e.1, pickedI)] with hs1
    obtain ⟨⟨pickedR, hfoldR, hboundR⟩, hsatR, hdichR⟩ := ih hres2 q1 s1
    refine ⟨⟨(if pickedI.isEmpty then [] else [(e.1, pickedI)]) ++ pickedR, ?_, ?_⟩, ?_, ?_⟩
    · rw [hfoldR]
      have hsum : q1 = q + (((if pickedI.isEmpty then []
          else [(e.1, pickedI)]).map (fun p =>
            ((p.2.map (fun i => ((g p.1).getD i default).value)).sum))).sum) := by
        by_cases hpe : pickedI.isEmpty
        · have hnil : pickedI = [] := List.isEmpty_iff.mp hpe
          simp [hq1, hnil, hpe]
        · simp only [hpe, Bool.false_eq_true, if_false]
          simp [hq1, hge]
      simp only [Prod.mk.injEq]
      constructor
      · rw [List.map_append, List.sum_append, ← add_assoc, ← hsum]
      · rw [hs1]
        by_cases hpe : pickedI.isEmpty
        · simp [hpe]
        · simp [hpe, List.append_assoc]
    · intro p hp i hi
      rcases List.mem_append.mp hp with hlft | hrgt
      · by_cases hpe : pickedI.isEmpty
        · simp [hpe] at hlft
        · simp only [hpe, Bool.false_eq_true, if_false,
            List.mem_singleton] at hlft
          subst hlft
          have := hboundI i hi
          rw [hge]
          exact this.2
      · exact hboundR p hrgt i hi
    · intro hle
      have hI := hsatI hle
      rw [hfoldI] at hI
      have h1 : pickedI = [] := by
        have := congrArg Prod.snd hI
        simpa using this
      have hq1q : q1 = q := by simp [hq1, h1]
      have hs1s : s1 = s := by simp [hs1, h1]
      have hR := hsatR (by rw [hq1q]; exact hle)
      exact hR.trans (by rw [hq1q, hs1s])
    · intro hlt
      have hq1lt : q1 < amount := by
        by_contra hc
        have hR := hsatR (not_lt.mp hc)
        rw [hR] at hlt
        exact hc hlt
      have h2 := hdichI
      rw [hfoldI] at h2
      have h1 : q1 = q + lockedSum e.2 pubKeyHash := by
        rw [hq1]
        exact h2 (hq1 ▸ hq1lt)
      rw [hdichR hlt, h1]
      have hcons : lockedTotal (e :: rest) pubKeyHash =
          lockedSum e.2 pubKeyHash + lockedTotal rest pubKeyHash := by
        simp [lockedTotal]
      rw [hcons]
      ring

/-- C6: FindSpendableOutputs either accumulates at least the requested
amount, or it has examined every output in the bucket and its accumulator
equals the total value of all outputs locked to the key while falling short;
in both cases the accumulator is exactly the sum of the values of the
selected outputs (the bucket keys are distinct, as BoltDB keys are). -/
theorem findSpendableOutputs_spec (bkt : Bucket) (pubKeyHash : List Nat)
    (amount : ℚ) (hnd : (bkt.map Prod.fst).Nodup) :
    (findSpendableOutputs bkt pubKeyHash amount).1 =
        selectionSum bkt (findSpendableOutputs bkt pubKeyHash amount).2 ∧
      (amount ≤ (findSpendableOutputs bkt pubKeyHash amount).1 ∨
        ((findSpendableOutputs bkt pubKeyHash amount).1 < amount ∧
          (findSpendableOutputs bkt pubKeyHash amount).1 =
            lockedTotal bkt pubKeyHash)) := by
  have hres : ∀ e ∈ bkt, (fun k => (bucketGet bkt k).getD []) e.1 = e.2 := by
    intro e he
    simp [bucketGet_of_nodup bkt hnd e he]
  obtain ⟨⟨picked, hfold, hbound⟩, hsat, hdich⟩ :=
    findSpendable_outer_spec pubKeyHash amount
      (fun k => (bucketGet bkt k).getD []) bkt hres 0 []
  have hfs : findSpendableOutputs bkt pubKeyHash amount =
      (0 + ((picked.map (fun p =>
        ((p.2.map (fun i => (((bucketGet bkt p.1).getD []).getD i default).value)).sum))).sum),
        [] ++ picked) := hfold
  constructor
  · rw [hfs]
    simp only [zero_add, List.nil_append]
    rfl
  · rcases lt_or_le (findSpendableOutputs bkt pubKeyHash amount).1 amount with hlt | hge
    · right
      refine ⟨hlt, ?_⟩
      have hd : (findSpendableOutputs bkt pubKeyHash amount).1 =
          0 + lockedTotal bkt pubKeyHash := hdich hlt
      rw [hd]
      exact zero_add _
    · left
      exact hge

/-- The bucket of the C6 witness: two entries, three outputs, two of which
are locked to the key 7. -/
def spendDemoBucket : Bucket :=
  [([1], [⟨10, [7]⟩, ⟨5, [8]⟩]), ([2], [⟨3, [7]⟩])]

/-- Witness for C6 at a concrete bucket and amount. -/
theorem findSpendableOutputs_spec_witness :
    (findSpendableOutputs spendDemoBucket [7] 12).1 =
        selectionSum spendDemoBucket (findSpendableOutputs spendDemoBucket [7] 12).2 ∧
      (12 ≤ (findSpendableOutputs spendDemoBucket [7] 12).1 ∨
        ((findSpendableOutputs spendDemoBucket [7] 12).1 < 12 ∧
          (findSpendableOutputs spendDemoBucket [7] 12).1 =
            lockedTotal spendDemoBucket [7])) :=
  findSpendableOutputs_spec spendDemoBucket [7] 12 (by decide)

/-! ## Claim C3: the proof-of-work search -/

/-- The scan loop of Run: if it returns a nonce below the remaining fuel
budget, the returned hash is the hash of the data at that nonce, it beats
the target, and every earlier nonce from the start of the scan fails the
target. -/
theorem powRunAux_spec (cp : CryptoPrims) (b : Block) :
    ∀ (fuel start : Nat) (lh : List Nat),
      (powRunAux cp b fuel start lh).1 < start + fuel →
        beNat (powRunAux cp b fuel start lh).2 < powTarget ∧
          (powRunAux cp b fuel start lh).2 =
            sha256 (prepareData cp b (powRunAux cp b fuel start lh).1) ∧
          start ≤ (powRunAux cp b fuel start lh).1 ∧
          (∀ m, start ≤ m → m < (powRunAux cp b fuel start lh).1 →
            powTarget ≤ beNat (sha256 (prepareData cp b m))) := by
  intro fuel
  induction fuel with
  | zero =>
    intro start lh hlt
    simp [powRunAux] at hlt
  | succ n ih =>
    intro start lh hlt
    by_cases hfound : beNat (sha256 (prepareData cp b start)) < powTarget
    · have hr : powRunAux cp b (n + 1) start lh =
          (start, sha256 (prepareData cp b start)) := by
        simp [powRunAux, hfound]
      rw [hr]
      refine ⟨hfound, rfl, le_rfl, ?_⟩
      intro m h1 h2
      omega
    · have hr : powRunAux cp b (n + 1) start lh =
          powRunAux cp b n (start + 1) (sha256 (prepareData cp b start)) := by
        simp [powRunAux, hfound]
      rw [hr] at hlt ⊢
      have hlt2 : (powRunAux cp b n (start + 1) (sha256 (prepareData cp b start))).1
          < (start + 1) + n := by omega
      obtain ⟨h1, h2, h3, h4⟩ := ih (start + 1) (sha256 (prepareData cp b start)) hlt2
      refine ⟨h1, h2, by omega, ?_⟩
      intro m hm1 hm2
      rcases Nat.eq_or_lt_of_le hm1 with rfl | hmlt
      · exact not_lt.mp hfound
      · exact h4 m hmlt hm2

set_option maxHeartbeats 2000000

/-- prepareData ignores the nonce and hash header fields. -/
theorem prepareData_set_nonce (cp : CryptoPrims) (b : Block) (n m : Nat)
    (h : List Nat) :
    prepareData cp { b with nonce := n, hash := h } m = prepareData cp b m := rfl

/-- C3: when Run terminates with a nonce below maxNonce, the returned hash
is the SHA-256 of the pre-image at that nonce and is strictly below the
target 1 shifted left by 256 - targetBits, Validate accepts the block
carrying that nonce and hash, and the nonce is the first of the scan
0, 1, 2, and so on whose pre-image hash satisfies the target. -/
theorem powRun_first_satisfying (cp : CryptoPrims) (b : Block)
    (hterm : (powRun cp b).1 < maxNonce) :
    beNat (powRun cp b).2 < powTarget ∧
      (powRun cp b).2 = sha256 (prepareData cp b (powRun cp b).1) ∧
      (∀ m, m < (powRun cp b).1 → powTarget ≤ beNat (sha256 (prepareData cp b m))) ∧
      powValidate cp { b with nonce := (powRun cp b).1, hash := (powRun cp b).2 }
        = true := by
  have h0 : (powRun cp b).1 < 0 + maxNonce := by
    simpa using hterm
  obtain ⟨h1, h2, _, h4⟩ := powRunAux_spec cp b maxNonce 0 (List.replicate 32 0) h0
  have h1a : beNat (powRun cp b).2 < powTarget := h1
  have h2a : (powRun cp b).2 = sha256 (prepareData cp b (powRun cp b).1) := h2
  have h4a : ∀ m, 0 ≤ m → m < (powRun cp b).1 →
      powTarget ≤ beNat (sha256 (prepareData cp b m)) := h4
  refine ⟨h1a, h2a, fun m hm => h4a m (Nat.zero_le m) hm, ?_⟩
  simp only [powValidate, prepareData_set_nonce]
  rw [h2a] at h1a
  exact decide_eq_true h1a

/-- The block of the C3 witness: empty header fields and no transactions. -/
def powDemoBlock : Block := ⟨0, [], [], 0, []⟩

/-- Witness for C3: mining the demo block with the concrete primitives
terminates, so the theorem applies to it. -/
theorem powRun_first_satisfying_witness :
    beNat (powRun toyPrims powDemoBlock).2 < powTarget ∧
      (powRun toyPrims powDemoBlock).2 =
        sha256 (prepareData toyPrims powDemoBlock (powRun toyPrims powDemoBlock).1) ∧
      (∀ m, m < (powRun toyPrims powDemoBlock).1 →
        powTarget ≤ beNat (sha256 (prepareData toyPrims powDemoBlock m))) ∧
      powValidate toyPrims
          { powDemoBlock with
            nonce := (powRun toyPrims powDemoBlock).1,
            hash := (powRun toyPrims powDemoBlock).2 } = true :=
  powRun_first_satisfying toyPrims powDemoBlock (by decide)

/-! ## Claim C5: MineBlock -/

/-- C5: provided every transaction's verification terminates (its previous
transactions resolve on the chain), MineBlock rejects with the invalid
transaction panic exactly when some transaction of the batch fails
signature verification; a coinbase transaction always passes verification;
and on success exactly one block is appended whose transactions are the
batch, whose previous hash is the tip hash read from the store, and both
the stored tip key and the in-memory tip advance to the new block's hash. -/
theorem mineBlock_spec (cp : CryptoPrims) (now : Int) (chain : BlockChain)
    (txs : List Transaction)
    (hwf : ∀ tx ∈ txs, verifyTx cp chain tx ≠ none) :
    (mineBlock cp now chain txs = .error MineErr.invalidTx ↔
        ∃ tx ∈ txs, verifyTx cp chain tx = some false) ∧
      (∀ tx, isCoinbaseTx tx = true → verifyTx cp chain tx = some true) ∧
      ((∀ tx ∈ txs, verifyTx cp chain tx = some true) →
        ∃ st b, mineBlock cp now chain txs = .ok (st, b) ∧
          b.transactions = txs ∧
          b.prevBlockHash = chain.tipStored ∧
          st.blocks = b :: chain.blocks ∧
          st.tipStored = b.hash ∧ st.tipMem = b.hash) := by
  refine ⟨⟨?_, ?_⟩, ?_, ?_⟩
  · intro herr
    unfold mineBlock at herr
    rcases hfind : txs.findSome? (fun tx =>
        match verifyTx cp chain tx with
        | some true => none
        | some false => some MineErr.invalidTx
        | none => some MineErr.panicked) with _ | e
    · rw [hfind] at herr
      simp at herr
    · rw [hfind] at herr
      simp only [Except.error.injEq] at herr
      subst herr
      obtain ⟨tx, htx, hvtx⟩ := List.exists_of_findSome?_eq_some hfind
      refine ⟨tx, htx, ?_⟩
      rcases hv : verifyTx cp chain tx with _ | b
      · rw [hv] at hvtx
        simp at hvtx
      · rcases b with _ | _
        · rfl
        · rw [hv] at hvtx
          simp at hvtx
  · rintro ⟨tx, htx, hfalse⟩
    unfold mineBlock
    rcases hfind : txs.findSome? (fun tx =>
        match verifyTx cp chain tx with
        | some true => none
        | some false => some MineErr.invalidTx
        | none => some MineErr.panicked) with _ | e
    · exfalso
      have hall := List.findSome?_eq_none_iff.mp hfind tx htx
      rw [hfalse] at hall
      simp at hall
    · obtain ⟨tx2, htx2, hvtx2⟩ := List.exists_of_findSome?_eq_some hfind
      have he : e = MineErr.invalidTx := by
        rcases hv : verifyTx cp chain tx2 with _ | b
        · exact absurd hv (hwf tx2 htx2)
        · rcases b with _ | _
          · rw [hv] at hvtx2
            simpa using hvtx2.symm
          · rw [hv] at hvtx2
            simp at hvtx2
      rw [he]
  · intro tx hcb
    simp [verifyTx, hcb]
  · intro hall
    have hnone : txs.findSome? (fun tx =>
        match verifyTx cp chain tx with
        | some true => none
        | some false => some MineErr.invalidTx
        | none => some MineErr.panicked) = none := by
      rw [List.findSome?_eq_none_iff]
      intro tx htx
      rw [hall tx htx]
    refine ⟨⟨newBlock cp now txs chain.tipStored :: chain.blocks,
        (newBlock cp now txs chain.tipStored).hash,
        (newBlock cp now txs chain.tipStored).hash⟩,
      newBlock cp now txs chain.tipStored, ?_, ?_, ?_, rfl, rfl, rfl⟩
    · unfold mineBlock
      rw [hnone]
    · rfl
    · rfl

/-- The coinbase transaction of the C5 witness. -/
def mineDemoTx : Transaction := ⟨[1], [⟨[], -1, [], [42]⟩], [⟨666, [9]⟩]⟩

/-- Witness for C5: mining a batch holding one coinbase transaction on a
chain with tip hash 7 succeeds and advances both tips. -/
theorem mineBlock_spec_witness :
    ∃ st b, mineBlock toyPrims 0 ⟨[], [7], [7]⟩ [mineDemoTx] = .ok (st, b) ∧
      b.transactions = [mineDemoTx] ∧
      b.prevBlockHash = (BlockChain.mk [] [7] [7]).tipStored ∧
      st.blocks = b :: (BlockChain.mk [] [7] [7]).blocks ∧
      st.tipStored = b.hash ∧ st.tipMem = b.hash :=
  (mineBlock_spec toyPrims 0 ⟨[], [7], [7]⟩ [mineDemoTx] (by decide)).2.2 (by decide)

/-! ## Machinery for Sign and Verify (claims C9 and C1) -/

/-- The length is unchanged by modifyNth. -/
theorem length_modifyNth {α : Type} (f : α → α) :
    ∀ (i : Nat) (l : List α), (modifyNth f i l).length = l.length := by
  intro i
  induction i with
  | zero =>
    intro l
    cases l <;> simp [modifyNth]
  | succ n ih =>
    intro l
    cases l with
    | nil => simp [modifyNth]
    | cons a t => simp [modifyNth, ih]

/-- modifyNth looked up at the modified index. -/
theorem get?_modifyNth_self {α : Type} (f : α → α) :
    ∀ (i : Nat) (l : List α), (modifyNth f i l).get? i = (l.get? i).map f := by
  intro i
  induction i with
  | zero =>
    intro l
    cases l <;> simp [modifyNth]
  | succ n ih =>
    intro l
    cases l with
    | nil => simp [modifyNth]
    | cons a t => simpa [modifyNth] using ih t

/-- modifyNth looked up away from the modified index. -/
theorem get?_modifyNth_ne {α : Type} (f : α → α) :
    ∀ (i j : Nat) (l : List α), i ≠ j → (modifyNth f i l).get? j = l.get? j := by
  intro i
  induction i with
  | zero =>
    intro j l hne
    cases l with
    | nil => simp [modifyNth]
    | cons a t =>
      cases j with
      | zero => exact absurd rfl hne
      | succ m => simp [modifyNth]
  | succ n ih =>
    intro j l hne
    cases l with
    | nil => simp [modifyNth]
    | cons a t =>
      cases j with
      | zero => simp [modifyNth]
      | succ m =>
        simp only [modifyNth, List.get?]
        exact ih m t (fun h => hne (by rw [h]))

/-- modifyNth is the identity when the function fixes the element there. -/
theorem modifyNth_eq_self {α : Type} (f : α → α) :
    ∀ (i : Nat) (l : List α) (a : α), l.get? i = some a → f a = a →
      modifyNth f i l = l := by
  intro i
  induction i with
  | zero =>
    intro l a hget hfix
    cases l with
    | nil => simp at hget
    | cons x t =>
      simp only [List.get?] at hget
      obtain rfl := Option.some.inj hget
      simp [modifyNth, hfix]
  | succ n ih =>
    intro l a hget hfix
    cases l with
    | nil => simp at hget
    | cons x t =>
      simp only [List.get?] at hget
      simp [modifyNth, ih t a hget hfix]

/-- Two modifications at one index compose. -/
theorem modifyNth_modifyNth {α : Type} (f g : α → α) :
    ∀ (i : Nat) (l : List α),
      modifyNth g i (modifyNth f i l) = modifyNth (fun x => g (f x)) i l := by
  intro i
  induction i with
  | zero =>
    intro l
    cases l <;> simp [modifyNth]
  | succ n ih =>
    intro l
    cases l with
    | nil => simp [modifyNth]
    | cons a t => simp [modifyNth, ih]

/-- The input trimming of Transaction.Copy. -/
def trimInput (i : TxInput) : TxInput :=
  ⟨i.txId, i.voutIdx, [], []⟩

/-- Copy of the inputs is a map of trimming. -/
theorem copyTx_vin (tx : Transaction) : (copyTx tx).vin = tx.vin.map trimInput := rfl

/-- Copy preserves the outputs. -/
theorem copyTx_vout (tx : Transaction) : (copyTx tx).vout = tx.vout := by
  show tx.vout.map (fun o => { value := o.value, pubKeyHash := o.pubKeyHash }) = tx.vout
  have : (fun o : TxOutput => TxOutput.mk o.value o.pubKeyHash) = id := by
    funext o
    rfl
  rw [this, List.map_id]

/-- Copy preserves the id. -/
theorem copyTx_id (tx : Transaction) : (copyTx tx).id = tx.id := rfl

/-- The trimmed copy with one input's public key field set. -/
def withPubKeyAt (tx0 : Transaction) (i : Nat) (h : List Nat) : Transaction :=
  { tx0 with vin := modifyNth (fun inp => { inp with pubKey := h }) i tx0.vin }

/-- The previous output referenced by one input. -/
def resolveInp (prevTxs : PrevMap) (inp : TxInput) : Option TxOutput :=
  (lookupTx prevTxs inp.txId).bind (fun t => outAt t inp.voutIdx)

/-- The resolved previous output of the input at one index. -/
def prevOutAt (prevTxs : PrevMap) (tx0 : Transaction) (i : Nat) : TxOutput :=
  (resolveInp prevTxs (tx0.vin.getD i default)).getD default

/-- The digest signed and verified for the input at one index: the rendering
of the trimmed copy with that input's public key replaced by the pubkey hash
of the referenced previous output. -/
def digestAt (cp : CryptoPrims) (prevTxs : PrevMap) (tx0 : Transaction) (i : Nat) :
    List Nat :=
  cp.render (withPubKeyAt (copyTx tx0) i (prevOutAt prevTxs tx0 i).pubKeyHash)

/-- The signature stored for the input at one index. -/
def sigAt (cp : CryptoPrims) (sk : Nat) (prevTxs : PrevMap) (tx0 : Transaction)
    (i : Nat) : List Nat :=
  cp.ecdsaSign sk (digestAt cp prevTxs tx0 i)

/-- An index whose input resolves to a previous output. -/
def validIdx (prevTxs : PrevMap) (tx0 : Transaction) (i : Nat) : Prop :=
  (resolveInp prevTxs (tx0.vin.getD i default)).isSome = true

instance validIdxDec (prevTxs : PrevMap) (tx0 : Transaction) (i : Nat) :
    Decidable (validIdx prevTxs tx0 i) :=
  instDecidableEqBool (resolveInp prevTxs (tx0.vin.getD i default)).isSome true

/-- An in-range lookup yields the default-valued access. -/
theorem get?_eq_some_getD {α : Type} [Inhabited α] :
    ∀ (l : List α) (i : Nat), i < l.length → l.get? i = some (l.getD i default) := by
  intro l
  induction l with
  | nil => intro i hi; simp at hi
  | cons a t ih =>
    intro i hi
    cases i with
    | zero => rfl
    | succ n =>
      simp only [List.get?, List.getD_cons_succ]
      exact ih n (by simpa using hi)

/-- trimInput keeps the transaction id field of the input. -/
theorem trimInput_txId (x : TxInput) : (trimInput x).txId = x.txId := rfl

/-- trimInput keeps the output index field of the input. -/
theorem trimInput_voutIdx (x : TxInput) : (trimInput x).voutIdx = x.voutIdx := rfl

/-- One step of the signing loop at a resolvable index: the copied
transaction returns to the trimmed copy and the current transaction gains
the signature of that index. -/
theorem signLoop_cons_eq (cp : CryptoPrims) (sk : Nat) (prevTxs : PrevMap)
    (tx0 : Transaction) (i : Nat) (rest : List Nat) (cur : Transaction)
    (hi : i < tx0.vin.length) (hval : validIdx prevTxs tx0 i) :
    signLoop cp sk prevTxs (i :: rest) (copyTx tx0) cur =
      signLoop cp sk prevTxs rest (copyTx tx0)
        { cur with vin := (modifyNth (fun inp => { inp with signature := sigAt cp sk prevTxs tx0 i }) i cur.vin) } := by
  have hget : tx0.vin.get? i = some (tx0.vin.getD i default) :=
    get?_eq_some_getD _ _ hi
  have hcget : (copyTx tx0).vin.get? i =
      some (trimInput (tx0.vin.getD i default)) := by
    rw [copyTx_vin, List.get?_map, hget]
    rfl
  unfold validIdx at hval
  rcases hlk : lookupTx prevTxs (tx0.vin.getD i default).txId with _ | t
  · exfalso
    unfold resolveInp at hval
    rw [hlk] at hval
    simp at hval
  · rcases hout : outAt t (tx0.vin.getD i default).voutIdx with _ | o
    · exfalso
      unfold resolveInp at hval
      rw [hlk] at hval
      have : (some t).bind (fun t => outAt t (tx0.vin.getD i default).voutIdx) = none := by
        simpa using hout
      rw [this] at hval
      simp at hval
    · have hr : resolveInp prevTxs (tx0.vin.getD i default) = some o := by
        unfold resolveInp
        rw [hlk]
        exact hout
      have hpo : prevOutAt prevTxs tx0 i = o := by
        unfold prevOutAt
        rw [hr]
        rfl
      have hA : modifyNth (fun inp => { inp with signature := [] }) i (copyTx tx0).vin =
          (copyTx tx0).vin :=
        modifyNth_eq_self _ i _ _ hcget rfl
      have hB : modifyNth (fun inp => { inp with pubKey := [] }) i
          (modifyNth (fun inp => { inp with pubKey := o.pubKeyHash }) i (copyTx tx0).vin) =
          (copyTx tx0).vin := by
        rw [modifyNth_modifyNth]
        exact modifyNth_eq_self _ i _ _ hcget rfl
      simp only [signLoop, hcget, trimInput_txId, trimInput_voutIdx, hlk, hout, hA, hB]
      rw [← hpo]
      rfl

/-- The per-index update applied by the signing loop to the transaction
being signed. -/
def setSigStep (cp : CryptoPrims) (sk : Nat) (prevTxs : PrevMap)
    (tx0 : Transaction) (c : Transaction) (i : Nat) : Transaction :=
  { c with vin := (modifyNth (fun inp => { inp with signature := sigAt cp sk prevTxs tx0 i }) i c.vin) }

/-- The signing loop over any list of resolvable indices folds the
per-index signature updates into the current transaction. -/
theorem signLoop_spec (cp : CryptoPrims) (sk : Nat) (prevTxs : PrevMap)
    (tx0 : Transaction) :
    ∀ (idxs : List Nat) (cur : Transaction),
      (∀ i ∈ idxs, i < tx0.vin.length ∧ validIdx prevTxs tx0 i) →
      signLoop cp sk prevTxs idxs (copyTx tx0) cur =
        some (idxs.foldl (setSigStep cp sk prevTxs tx0) cur) := by
  intro idxs
  induction idxs with
  | nil =>
    intro cur _
    rfl
  | cons i rest ih =>
    intro cur hval
    obtain ⟨hi, hres⟩ := hval i (by simp)
    rw [signLoop_cons_eq cp sk prevTxs tx0 i rest cur hi hres, List.foldl_cons]
    exact ih _ (fun j hj => hval j (by simp [hj]))

/-- The signature fold keeps the transaction id. -/
theorem foldSetSig_id (cp : CryptoPrims) (sk : Nat) (prevTxs : PrevMap)
    (tx0 : Transaction) :
    ∀ (idxs : List Nat) (cur : Transaction),
      (List.foldl (setSigStep cp sk prevTxs tx0) cur idxs).id = cur.id := by
  intro idxs
  induction idxs with
  | nil => intro cur; rfl
  | cons i rest ih =>
    intro cur
    rw [List.foldl_cons, ih]
    rfl

/-- The signature fold keeps the outputs. -/
theorem foldSetSig_vout (cp : CryptoPrims) (sk : Nat) (prevTxs : PrevMap)
    (tx0 : Transaction) :
    ∀ (idxs : List Nat) (cur : Transaction),
      (List.foldl (setSigStep cp sk prevTxs tx0) cur idxs).vout = cur.vout := by
  intro idxs
  induction idxs with
  | nil => intro cur; rfl
  | cons i rest ih =>
    intro cur
    rw [List.foldl_cons, ih]
    rfl

/-- The signature fold keeps the number of inputs. -/
theorem foldSetSig_length (cp : CryptoPrims) (sk : Nat) (prevTxs : PrevMap)
    (tx0 : Transaction) :
    ∀ (idxs : List Nat) (cur : Transaction),
      (List.foldl (setSigStep cp sk prevTxs tx0) cur idxs).vin.length = cur.vin.length := by
  intro idxs
  induction idxs with
  | nil => intro cur; rfl
  | cons i rest ih =>
    intro cur
    rw [List.foldl_cons, ih]
    exact length_modifyNth _ i cur.vin

/-- The inputs after the signature fold: every folded index gets its
signature replaced, all other positions are untouched. -/
theorem foldSetSig_get (cp : CryptoPrims) (sk : Nat) (prevTxs : PrevMap)
    (tx0 : Transaction) :
    ∀ (idxs : List Nat) (cur : Transaction) (j : Nat),
      (List.foldl (setSigStep cp sk prevTxs tx0) cur idxs).vin.get? j =
        if j ∈ idxs then
          (cur.vin.get? j).map (fun inp => { inp with signature := sigAt cp sk prevTxs tx0 j })
        else cur.vin.get? j := by
  intro idxs
  induction idxs with
  | nil =>
    intro cur j
    simp
  | cons i rest ih =>
    intro cur j
    rw [List.foldl_cons, ih]
    by_cases hj : j = i
    · subst hj
      have hstep : (setSigStep cp sk prevTxs tx0 cur j).vin.get? j =
          (cur.vin.get? j).map (fun inp => { inp with signature := sigAt cp sk prevTxs tx0 j }) :=
        get?_modifyNth_self _ j cur.vin
      by_cases hr : j ∈ rest
      · rw [if_pos hr, hstep, if_pos (List.mem_cons_self j rest)]
        rcases cur.vin.get? j with _ | inp
        · rfl
        · rfl
      · rw [if_neg hr, hstep, if_pos (List.mem_cons_self j rest)]
    · have hstep : (setSigStep cp sk prevTxs tx0 cur i).vin.get? j = cur.vin.get? j :=
        get?_modifyNth_ne _ i j cur.vin (fun h => hj h.symm)
      rw [hstep]
      by_cases hr : j ∈ rest
      · rw [if_pos hr, if_pos (List.mem_cons_of_mem i hr)]
      · rw [if_neg hr, if_neg (by simp [hj, hr])]

/-- One step of the verification loop at a resolvable index whose stored
input matches the digest: the copied transaction returns to the trimmed copy
and the loop continues. -/
theorem verifyLoop_cons_eq (cp : CryptoPrims) (prevTxs : PrevMap)
    (tx0 tx' : Transaction) (i : Nat) (rest : List Nat) (tin : TxInput)
    (hi : i < tx0.vin.length) (hval : validIdx prevTxs tx0 i)
    (htin : tx'.vin.get? i = some tin)
    (htid : tin.txId = (tx0.vin.getD i default).txId)
    (hvidx : tin.voutIdx = (tx0.vin.getD i default).voutIdx)
    (hok : cp.ecdsaVerify tin.pubKey (digestAt cp prevTxs tx0 i) tin.signature = true) :
    verifyLoop cp prevTxs (i :: rest) (copyTx tx0) tx' =
      verifyLoop cp prevTxs rest (copyTx tx0) tx' := by
  have hget : tx0.vin.get? i = some (tx0.vin.getD i default) :=
    get?_eq_some_getD _ _ hi
  have hcget : (copyTx tx0).vin.get? i =
      some (trimInput (tx0.vin.getD i default)) := by
    rw [copyTx_vin, List.get?_map, hget]
    rfl
  rcases hlk : lookupTx prevTxs (tx0.vin.getD i default).txId with _ | t
  · exfalso
    unfold validIdx resolveInp at hval
    rw [hlk] at hval
    simp at hval
  · rcases hout : outAt t (tx0.vin.getD i default).voutIdx with _ | o
    · exfalso
      unfold validIdx resolveInp at hval
      rw [hlk] at hval
      have hb : (some t).bind (fun t => outAt t (tx0.vin.getD i default).voutIdx) = none := by
        simpa using hout
      rw [hb] at hval
      simp at hval
    · have hr : resolveInp prevTxs (tx0.vin.getD i default) = some o := by
        unfold resolveInp
        rw [hlk]
        exact hout
      have hpo : prevOutAt prevTxs tx0 i = o := by
        unfold prevOutAt
        rw [hr]
        rfl
      have hA : modifyNth (fun inp => { inp with signature := [] }) i (copyTx tx0).vin =
          (copyTx tx0).vin :=
        modifyNth_eq_self _ i _ _ hcget rfl
      have hB : modifyNth (fun inp => { inp with pubKey := [] }) i
          (modifyNth (fun inp => { inp with pubKey := o.pubKeyHash }) i (copyTx tx0).vin) =
          (copyTx tx0).vin := by
        rw [modifyNth_modifyNth]
        exact modifyNth_eq_self _ i _ _ hcget rfl
      have hok2 : cp.ecdsaVerify tin.pubKey
          (cp.render { copyTx tx0 with vin := (modifyNth (fun inp => { inp with pubKey := o.pubKeyHash }) i (copyTx tx0).vin) })
          tin.signature = true := by
        unfold digestAt withPubKeyAt at hok
        rw [hpo] at hok
        exact hok
      simp only [verifyLoop, htin, htid, hvidx, hlk, hout, hA, hok2, hB, if_true]

/-- The verification loop over indices whose stored inputs all match their
digests returns true. -/
theorem verifyLoop_spec (cp : CryptoPrims) (prevTxs : PrevMap)
    (tx0 tx' : Transaction)
    (hcond : ∀ i, i < tx0.vin.length → validIdx prevTxs tx0 i ∧
      ∃ tin, tx'.vin.get? i = some tin ∧
        tin.txId = (tx0.vin.getD i default).txId ∧
        tin.voutIdx = (tx0.vin.getD i default).voutIdx ∧
        cp.ecdsaVerify tin.pubKey (digestAt cp prevTxs tx0 i) tin.signature = true) :
    ∀ (idxs : List Nat), (∀ i ∈ idxs, i < tx0.vin.length) →
      verifyLoop cp prevTxs idxs (copyTx tx0) tx' = some true := by
  intro idxs
  induction idxs with
  | nil =>
    intro _
    rfl
  | cons i rest ih =>
    intro hmem
    have hi : i < tx0.vin.length := hmem i (by simp)
    obtain ⟨hval, tin, htin, htid, hvidx, hok⟩ := hcond i hi
    rw [verifyLoop_cons_eq cp prevTxs tx0 tx' i rest tin hi hval htin htid hvidx hok]
    exact ih (fun j hj => hmem j (by simp [hj]))

/-- Sign on a non-coinbase transaction whose inputs all resolve: the result
is the transaction with every input signature replaced by the per-index
signature, all other fields unchanged. -/
theorem sign_characterized (cp : CryptoPrims) (sk : Nat) (prevTxs : PrevMap)
    (tx : Transaction)
    (hcb : isCoinbaseTx tx = false)
    (hpc : prevCheck prevTxs tx = true)
    (hres : ∀ i, i < tx.vin.length → validIdx prevTxs tx i) :
    ∃ tx', sign cp sk prevTxs tx = some tx' ∧
      tx'.id = tx.id ∧ tx'.vout = tx.vout ∧ tx'.vin.length = tx.vin.length ∧
      ∀ j, j < tx.vin.length → tx'.vin.get? j =
        some { tx.vin.getD j default with signature := sigAt cp sk prevTxs tx j } := by
  have hloop := signLoop_spec cp sk prevTxs tx (List.range tx.vin.length) tx
    (fun i hi => ⟨List.mem_range.mp hi, hres i (List.mem_range.mp hi)⟩)
  refine ⟨List.foldl (setSigStep cp sk prevTxs tx) tx (List.range tx.vin.length),
    ?_, ?_, ?_, ?_, ?_⟩
  · unfold sign
    rw [hcb, hpc]
    simpa using hloop
  · exact foldSetSig_id cp sk prevTxs tx _ tx
  · exact foldSetSig_vout cp sk prevTxs tx _ tx
  · exact foldSetSig_length cp sk prevTxs tx _ tx
  · intro j hj
    rw [foldSetSig_get, if_pos (List.mem_range.mpr hj), get?_eq_some_getD _ _ hj]
    rfl

/-- A transaction that agrees with a non-coinbase transaction everywhere but
the input signatures, carrying the per-index signatures of the secret key
whose public key all inputs hold, passes Verify. -/
theorem verify_of_signed (cp : CryptoPrims) (sk : Nat) (pk : List Nat)
    (prevTxs : PrevMap) (tx tx' : Transaction)
    (hcb : isCoinbaseTx tx = false)
    (hpc : prevCheck prevTxs tx = true)
    (hres : ∀ i, i < tx.vin.length → validIdx prevTxs tx i)
    (hpks : ∀ i, i < tx.vin.length → (tx.vin.getD i default).pubKey = pk)
    (hsig : ∀ d, cp.ecdsaVerify pk d (cp.ecdsaSign sk d) = true)
    (hid : tx'.id = tx.id)
    (hvout : tx'.vout = tx.vout)
    (hlen : tx'.vin.length = tx.vin.length)
    (hget : ∀ j, j < tx.vin.length → tx'.vin.get? j =
      some { tx.vin.getD j default with signature := sigAt cp sk prevTxs tx j }) :
    verify cp prevTxs tx' = some true := by
  have hvin : tx'.vin.map trimInput = tx.vin.map trimInput := by
    apply List.ext
    intro n
    rw [List.get?_map, List.get?_map]
    by_cases hn : n < tx.vin.length
    · rw [hget n hn, get?_eq_some_getD _ _ hn]
      rfl
    · have h1 : tx.vin.length ≤ n := Nat.le_of_not_lt hn
      have h2 : tx'.vin.length ≤ n := by rw [hlen]; exact h1
      rw [List.get?_eq_none.mpr h2, List.get?_eq_none.mpr h1]
  have hcopy : copyTx tx' = copyTx tx := by
    unfold copyTx
    simp only [Transaction.mk.injEq]
    refine ⟨hid, ?_, by rw [hvout]⟩
    exact hvin
  have hcb2 : isCoinbaseTx tx' = false := by
    rcases htxv : tx'.vin with _ | ⟨a, rest'⟩
    · simp [isCoinbaseTx, htxv]
    · rcases rest' with _ | ⟨b, rest2⟩
      · have hl1 : tx.vin.length = 1 := by rw [← hlen, htxv]; rfl
        have h0 : (0 : Nat) < tx.vin.length := by omega
        have hg0 := hget 0 h0
        rw [htxv] at hg0
        have ha : a = { tx.vin.getD 0 default with signature := sigAt cp sk prevTxs tx 0 } := by
          simpa using hg0
        obtain ⟨w, hw⟩ := List.length_eq_one.mp hl1
        have hw0 : tx.vin.getD 0 default = w := by rw [hw]; rfl
        have hfalse : isCoinbaseTx tx = false := hcb
        simp only [isCoinbaseTx, hw] at hfalse
        simp only [isCoinbaseTx, htxv]
        rw [ha, hw0]
        exact hfalse
      · simp [isCoinbaseTx, htxv]
  have hpc2 : prevCheck prevTxs tx' = true := by
    unfold prevCheck
    rw [List.all_eq_true]
    intro inp hinp
    obtain ⟨j, hj⟩ := List.mem_iff_get?.mp hinp
    have hjlt : j < tx'.vin.length := by
      rcases List.get?_eq_some.mp hj with ⟨h, _⟩
      exact h
    have hjt : j < tx.vin.length := by rw [← hlen]; exact hjlt
    rw [hget j hjt] at hj
    obtain rfl : inp = { tx.vin.getD j default with signature := sigAt cp sk prevTxs tx j } :=
      (Option.some.inj hj).symm
    have hmem : tx.vin.getD j default ∈ tx.vin := List.get?_mem (get?_eq_some_getD _ _ hjt)
    have hpca := hpc
    unfold prevCheck at hpca
    rw [List.all_eq_true] at hpca
    exact hpca (tx.vin.getD j default) hmem
  unfold verify
  rw [hcb2, hpc2]
  simp only [Bool.false_eq_true, if_false, if_true]
  rw [hcopy, hlen]
  apply verifyLoop_spec cp prevTxs tx tx'
  · intro i hi
    refine ⟨hres i hi, ⟨{ tx.vin.getD i default with signature := sigAt cp sk prevTxs tx i },
      hget i hi, rfl, rfl, ?_⟩⟩
    show cp.ecdsaVerify (tx.vin.getD i default).pubKey (digestAt cp prevTxs tx i)
      (sigAt cp sk prevTxs tx i) = true
    rw [hpks i hi]
    exact hsig _
  · intro i hi
    exact List.mem_range.mp hi

/-- Claim C9: Sign leaves a coinbase transaction entirely unchanged; on a
non-coinbase transaction whose previous-transaction map covers and resolves
every input, Sign mutates only the Signature field of each input: the
transaction id, the output list, the number of inputs, and every input's
TxId, VoutIdx and PubKey fields are the same after signing as before. -/
theorem sign_frame (cp : CryptoPrims) (sk : Nat) (prevTxs : PrevMap)
    (tx : Transaction) :
    (isCoinbaseTx tx = true → sign cp sk prevTxs tx = some tx) ∧
    (isCoinbaseTx tx = false → prevCheck prevTxs tx = true →
      (∀ i, i < tx.vin.length → validIdx prevTxs tx i) →
      ∃ tx', sign cp sk prevTxs tx = some tx' ∧
        tx'.id = tx.id ∧ tx'.vout = tx.vout ∧ tx'.vin.length = tx.vin.length ∧
        ∀ i, i < tx.vin.length →
          (tx'.vin.getD i default).txId = (tx.vin.getD i default).txId ∧
          (tx'.vin.getD i default).voutIdx = (tx.vin.getD i default).voutIdx ∧
          (tx'.vin.getD i default).pubKey = (tx.vin.getD i default).pubKey) := by
  constructor
  · intro h
    unfold sign
    rw [h]
    rfl
  · intro hcb hpc hres
    obtain ⟨tx', hsign, hid, hvout, hlen, hget⟩ :=
      sign_characterized cp sk prevTxs tx hcb hpc hres
    refine ⟨tx', hsign, hid, hvout, hlen, ?_⟩
    intro i hi
    have h := hget i hi
    have h2 : tx'.vin.get? i = some (tx'.vin.getD i default) :=
      get?_eq_some_getD _ _ (by rw [hlen]; exact hi)
    rw [h] at h2
    have hgd : tx'.vin.getD i default =
        { tx.vin.getD i default with signature := sigAt cp sk prevTxs tx i } :=
      (Option.some.inj h2).symm
    rw [hgd]
    exact ⟨rfl, rfl, rfl⟩

/-- A previous transaction for exercising the frame property of Sign. -/
def framePrevTx : Transaction := ⟨[1], [⟨[], -1, [], [0]⟩], [⟨5, [9]⟩]⟩

/-- A previous-transaction map with the one previous transaction. -/
def frameDemoPrev : PrevMap := [([1], framePrevTx)]

/-- A one-input transaction spending the previous transaction's output. -/
def frameDemoTx : Transaction := ⟨[2], [⟨[1], 0, [], [3]⟩], [⟨5, [8]⟩]⟩

/-- A coinbase transaction for the unchanged branch of the frame property. -/
def frameCoinTx : Transaction := ⟨[4], [⟨[], -1, [], [7]⟩], [⟨666, [9]⟩]⟩

/-- Witness for C9: the frame property applied to a concrete coinbase
transaction and to a concrete one-input spending transaction over the
concrete primitives. -/
theorem sign_frame_witness :
    (sign toyPrims 3 frameDemoPrev frameCoinTx = some frameCoinTx) ∧
    (∃ tx', sign toyPrims 3 frameDemoPrev frameDemoTx = some tx' ∧
      tx'.id = frameDemoTx.id ∧ tx'.vout = frameDemoTx.vout ∧
      tx'.vin.length = frameDemoTx.vin.length ∧
      ∀ i, i < frameDemoTx.vin.length →
        (tx'.vin.getD i default).txId = (frameDemoTx.vin.getD i default).txId ∧
        (tx'.vin.getD i default).voutIdx = (frameDemoTx.vin.getD i default).voutIdx ∧
        (tx'.vin.getD i default).pubKey = (frameDemoTx.vin.getD i default).pubKey) :=
  ⟨(sign_frame toyPrims 3 frameDemoPrev frameCoinTx).1 (by decide),
   (sign_frame toyPrims 3 frameDemoPrev frameDemoTx).2 (by decide) (by decide) (by decide)⟩

/-- The transaction found by FindTx carries the looked-up id. -/
theorem findTx_id (chain : BlockChain) (k : List Nat) (p : Transaction)
    (h : findTx chain k = some p) : p.id = k := by
  unfold findTx at h
  rcases List.exists_of_findSome?_eq_some h with ⟨b, hb, hfind⟩
  have hbeq := List.find?_some hfind
  simpa using hbeq

/-- getPrevTxs depends only on the input transaction ids. -/
theorem prevFoldr_congr (chain : BlockChain) :
    ∀ (l1 l2 : List TxInput),
      l1.map (fun i => i.txId) = l2.map (fun i => i.txId) →
      l1.foldr (fun i acc =>
        match acc, findTx chain i.txId with
        | some m, some p => some ((p.id, p) :: m)
        | _, _ => none) (some []) =
      l2.foldr (fun i acc =>
        match acc, findTx chain i.txId with
        | some m, some p => some ((p.id, p) :: m)
        | _, _ => none) (some []) := by
  intro l1
  induction l1 with
  | nil =>
    intro l2 h
    have : l2 = [] := by
      rcases l2 with _ | ⟨b, t2⟩
      · rfl
      · simp at h
    rw [this]
  | cons a t ih =>
    intro l2 h
    rcases l2 with _ | ⟨b, t2⟩
    · simp at h
    · simp only [List.map_cons, List.cons.injEq] at h
      obtain ⟨hab, ht⟩ := h
      rw [List.foldr_cons, List.foldr_cons, ih t2 ht, hab]

/-- BlockChain.getPrevTxs is the same for transactions with the same input
transaction ids. -/
theorem getPrevTxs_congr (chain : BlockChain) (tx1 tx2 : Transaction)
    (h : tx1.vin.map (fun i => i.txId) = tx2.vin.map (fun i => i.txId)) :
    getPrevTxs chain tx1 = getPrevTxs chain tx2 := by
  unfold getPrevTxs
  exact prevFoldr_congr chain tx1.vin tx2.vin h

/-- When every input's previous transaction is found on the chain, the
folded map resolves, and looking it up agrees with FindTx. -/
theorem prevFoldr_lookup (chain : BlockChain) :
    ∀ (l : List TxInput),
      (∀ inp ∈ l, (findTx chain inp.txId).isSome = true) →
      ∃ m, l.foldr (fun i acc =>
        match acc, findTx chain i.txId with
        | some m, some p => some ((p.id, p) :: m)
        | _, _ => none) (some []) = some m ∧
        ∀ inp ∈ l, lookupTx m inp.txId = findTx chain inp.txId := by
  intro l
  induction l with
  | nil =>
    intro _
    exact ⟨[], rfl, by simp⟩
  | cons a t ih =>
    intro hall
    obtain ⟨m, hm, hlk⟩ := ih (fun inp h => hall inp (List.mem_cons_of_mem a h))
    have ha := hall a (List.mem_cons_self a t)
    rcases hfa : findTx chain a.txId with _ | p
    · rw [hfa] at ha
      simp at ha
    · have hpid : p.id = a.txId := findTx_id chain a.txId p hfa
      refine ⟨(p.id, p) :: m, ?_, ?_⟩
      · rw [List.foldr_cons, hm, hfa]
      · intro inp hinp
        by_cases hk : inp.txId = p.id
        · have hbeq : ((p.id, p).1 == inp.txId) = true := by simp [hk]
          have h1 : lookupTx ((p.id, p) :: m) inp.txId = some p := by
            unfold lookupTx
            simp [List.find?, hbeq]
          rw [h1, hk, hpid, hfa]
        · have hbeq : ((p.id, p).1 == inp.txId) = false := by
            simp only [beq_eq_false_iff_ne, ne_eq]
            exact fun hh => hk hh.symm
          have h1 : lookupTx ((p.id, p) :: m) inp.txId = lookupTx m inp.txId := by
            unfold lookupTx
            simp [List.find?, hbeq]
          have hmem : inp ∈ t := by
            rcases List.mem_cons.mp hinp with hh | hh
            · exfalso
              apply hk
              rw [hh, hpid]
            · exact hh
          rw [h1, hlk inp hmem]

/-- getPrevTxs: resolution and lookup agreement with FindTx. -/
theorem getPrevTxs_some (chain : BlockChain) (tx : Transaction)
    (hall : ∀ inp ∈ tx.vin, (findTx chain inp.txId).isSome = true) :
    ∃ m, getPrevTxs chain tx = some m ∧
      ∀ inp ∈ tx.vin, lookupTx m inp.txId = findTx chain inp.txId := by
  unfold getPrevTxs
  exact prevFoldr_lookup chain tx.vin hall

/-- A transaction all of whose inputs have a nonnegative output index is not
a coinbase transaction. -/
theorem isCoinbase_false_of_nonneg (tx : Transaction)
    (h : ∀ inp ∈ tx.vin, (0 : Int) ≤ inp.voutIdx) : isCoinbaseTx tx = false := by
  rcases hv : tx.vin with _ | ⟨a, t⟩
  · simp [isCoinbaseTx, hv]
  · rcases t with _ | ⟨b, t2⟩
    · have ha := h a (by rw [hv]; exact List.mem_cons_self a _)
      have hne : (a.voutIdx == -1) = false := by
        simp only [beq_eq_false_iff_ne, ne_eq]
        omega
      simp [isCoinbaseTx, hv, hne]
    · simp [isCoinbaseTx, hv]

/-- A transaction agreeing with a non-coinbase transaction everywhere but
the input signatures is not a coinbase transaction either. -/
theorem signed_isCoinbase_false (tx tx' : Transaction) (s : Nat → List Nat)
    (hcb : isCoinbaseTx tx = false)
    (hlen : tx'.vin.length = tx.vin.length)
    (hget : ∀ j, j < tx.vin.length → tx'.vin.get? j =
      some { tx.vin.getD j default with signature := s j }) :
    isCoinbaseTx tx' = false := by
  rcases htxv : tx'.vin with _ | ⟨a, rest1⟩
  · simp [isCoinbaseTx, htxv]
  · rcases rest1 with _ | ⟨b, rest2⟩
    · have hl1 : tx.vin.length = 1 := by rw [← hlen, htxv]; rfl
      have h0 : (0 : Nat) < tx.vin.length := by omega
      have hg0 := hget 0 h0
      rw [htxv] at hg0
      have ha : a = { tx.vin.getD 0 default with signature := s 0 } := by simpa using hg0
      obtain ⟨v, hv⟩ := List.length_eq_one.mp hl1
      have hv0 : tx.vin.getD 0 default = v := by rw [hv]; rfl
      have hfalse : isCoinbaseTx tx = false := hcb
      simp only [isCoinbaseTx, hv] at hfalse
      simp only [isCoinbaseTx, htxv]
      rw [ha, hv0]
      exact hfalse
    · simp [isCoinbaseTx, htxv]

/-- A map over the inputs that ignores the signature field is unchanged by
the signing. -/
theorem signed_map_eq {α : Type} (tx tx' : Transaction) (s : Nat → List Nat)
    (hlen : tx'.vin.length = tx.vin.length)
    (hget : ∀ j, j < tx.vin.length → tx'.vin.get? j =
      some { tx.vin.getD j default with signature := s j })
    (f : TxInput → α)
    (hf : ∀ inp sg, f { inp with signature := sg } = f inp) :
    tx'.vin.map f = tx.vin.map f := by
  apply List.ext
  intro n
  rw [List.get?_map, List.get?_map]
  by_cases hn : n < tx.vin.length
  · rw [hget n hn, get?_eq_some_getD _ _ hn]
    show some (f { tx.vin.getD n default with signature := s n }) =
      some (f (tx.vin.getD n default))
    rw [hf]
  · have h1 : tx.vin.length ≤ n := Nat.le_of_not_lt hn
    have h2 : tx'.vin.length ≤ n := by rw [hlen]; exact h1
    rw [List.get?_eq_none.mpr h2, List.get?_eq_none.mpr h1]

/-- Claim C1: for every sender wallet, destination address and amount for
which coin selection accumulates at least the amount (and the addresses
decode, the selection resolves on the backing chain, and the signature
scheme verifies its own signatures), NewUTXOTx returns a transaction that
satisfies Verify against the same chain: its id is set to the hash of the
unsigned transaction, it has one input per selected pair carrying the
sender's public key, and every input's signature verifies. -/
theorem newUTXOTx_verifies (cp : CryptoPrims) (w : Wallet) (dstAddr : List Nat)
    (amount : ℚ) (us : UTXOSet)
    (hsig : ∀ d, cp.ecdsaVerify w.pubKey d (cp.ecdsaSign w.priv d) = true)
    (hamt : amount ≤ (findSpendableOutputs us.bucket (hashingPubKey w.pubKey) amount).1)
    (hdst : 5 ≤ (base58Decoding dstAddr).length)
    (hchg : amount < (findSpendableOutputs us.bucket (hashingPubKey w.pubKey) amount).1 → 5 ≤ (base58Decoding (getAddr w)).length)
    (hcov : ∀ p ∈ (findSpendableOutputs us.bucket (hashingPubKey w.pubKey) amount).2, p.1 ≠ [] ∧ ∃ t, findTx us.chain p.1 = some t ∧
      ∀ idx ∈ p.2, idx < t.vout.length) :
    ∃ tx', newUTXOTx cp w dstAddr amount us = some tx' ∧
      verifyTx cp us.chain tx' = some true ∧
      (∀ i, i < tx'.vin.length → (tx'.vin.getD i default).pubKey = w.pubKey) ∧
      tx'.vin.map (fun inp => (inp.txId, inp.voutIdx)) =
        (findSpendableOutputs us.bucket (hashingPubKey w.pubKey) amount).2.flatMap (fun p => p.2.map (fun idx => (p.1, Int.ofNat idx))) ∧
      tx'.id = hashing cp
        (Transaction.mk [] (tx'.vin.map (fun inp => { inp with signature := [] })) tx'.vout) := by
  obtain ⟨out0, hout0⟩ : ∃ o, newTxOutput amount dstAddr = some o := by
    simp only [newTxOutput]
    rw [if_pos hdst]
    exact ⟨_, rfl⟩
  obtain ⟨vout, hvoutEq⟩ : ∃ v,
      (if amount < (findSpendableOutputs us.bucket (hashingPubKey w.pubKey) amount).1 then
        (newTxOutput ((findSpendableOutputs us.bucket (hashingPubKey w.pubKey) amount).1 - amount) (getAddr w)).map (fun c => [out0, c])
      else some [out0]) = some v := by
    by_cases hlt : amount < (findSpendableOutputs us.bucket (hashingPubKey w.pubKey) amount).1
    · obtain ⟨c, hc⟩ : ∃ c, newTxOutput ((findSpendableOutputs us.bucket (hashingPubKey w.pubKey) amount).1 - amount) (getAddr w) = some c := by
        simp only [newTxOutput]
        rw [if_pos (hchg hlt)]
        exact ⟨_, rfl⟩
      rw [if_pos hlt, hc]
      exact ⟨[out0, c], rfl⟩
    · rw [if_neg hlt]
      exact ⟨[out0], rfl⟩
  have hkey : ∀ inp ∈ (findSpendableOutputs us.bucket (hashingPubKey w.pubKey) amount).2.flatMap (fun p => p.2.map (fun idx => TxInput.mk p.1 (Int.ofNat idx) [] w.pubKey)),
      ∃ t, findTx us.chain inp.txId = some t ∧ t.id = inp.txId ∧ inp.txId ≠ [] ∧
        (0 : Int) ≤ inp.voutIdx ∧ inp.voutIdx.toNat < t.vout.length ∧
        inp.pubKey = w.pubKey := by
    intro inp hinp
    rcases List.mem_flatMap.mp hinp with ⟨p, hp, hin⟩
    rcases List.mem_map.mp hin with ⟨idx, hidx, heq⟩
    subst heq
    obtain ⟨hne, t, ht, hlt⟩ := hcov p hp
    exact ⟨t, ht, findTx_id us.chain p.1 t ht, hne, Int.ofNat_nonneg idx, hlt idx hidx, rfl⟩
  have hall : ∀ inp ∈ (Transaction.mk (hashing cp (Transaction.mk [] ((findSpendableOutputs us.bucket (hashingPubKey w.pubKey) amount).2.flatMap (fun p => p.2.map (fun idx => TxInput.mk p.1 (Int.ofNat idx) [] w.pubKey))) vout)) ((findSpendableOutputs us.bucket (hashingPubKey w.pubKey) amount).2.flatMap (fun p => p.2.map (fun idx => TxInput.mk p.1 (Int.ofNat idx) [] w.pubKey))) vout).vin, (findTx us.chain inp.txId).isSome = true := by
    intro inp hinp
    obtain ⟨t, ht, _⟩ := hkey inp hinp
    rw [ht]
    rfl
  obtain ⟨m, hm, hlkup⟩ := getPrevTxs_some us.chain (Transaction.mk (hashing cp (Transaction.mk [] ((findSpendableOutputs us.bucket (hashingPubKey w.pubKey) amount).2.flatMap (fun p => p.2.map (fun idx => TxInput.mk p.1 (Int.ofNat idx) [] w.pubKey))) vout)) ((findSpendableOutputs us.bucket (hashingPubKey w.pubKey) amount).2.flatMap (fun p => p.2.map (fun idx => TxInput.mk p.1 (Int.ofNat idx) [] w.pubKey))) vout) hall
  have hcb1 : isCoinbaseTx (Transaction.mk (hashing cp (Transaction.mk [] ((findSpendableOutputs us.bucket (hashingPubKey w.pubKey) amount).2.flatMap (fun p => p.2.map (fun idx => TxInput.mk p.1 (Int.ofNat idx) [] w.pubKey))) vout)) ((findSpendableOutputs us.bucket (hashingPubKey w.pubKey) amount).2.flatMap (fun p => p.2.map (fun idx => TxInput.mk p.1 (Int.ofNat idx) [] w.pubKey))) vout) = false := by
    apply isCoinbase_false_of_nonneg
    intro inp hinp
    obtain ⟨t, _, _, _, hnn, _, _⟩ := hkey inp hinp
    exact hnn
  have hpc1 : prevCheck m (Transaction.mk (hashing cp (Transaction.mk [] ((findSpendableOutputs us.bucket (hashingPubKey w.pubKey) amount).2.flatMap (fun p => p.2.map (fun idx => TxInput.mk p.1 (Int.ofNat idx) [] w.pubKey))) vout)) ((findSpendableOutputs us.bucket (hashingPubKey w.pubKey) amount).2.flatMap (fun p => p.2.map (fun idx => TxInput.mk p.1 (Int.ofNat idx) [] w.pubKey))) vout) = true := by
    unfold prevCheck
    rw [List.all_eq_true]
    intro inp hinp
    obtain ⟨t, ht, htid, hne, _, _, _⟩ := hkey inp hinp
    rw [hlkup inp hinp, ht]
    show (!t.id.isEmpty) = true
    rcases hti : inp.txId with _ | ⟨x, xs⟩
    · exact absurd hti hne
    · rw [htid, hti]
      rfl
  have hres1 : ∀ i, i < (Transaction.mk (hashing cp (Transaction.mk [] ((findSpendableOutputs us.bucket (hashingPubKey w.pubKey) amount).2.flatMap (fun p => p.2.map (fun idx => TxInput.mk p.1 (Int.ofNat idx) [] w.pubKey))) vout)) ((findSpendableOutputs us.bucket (hashingPubKey w.pubKey) amount).2.flatMap (fun p => p.2.map (fun idx => TxInput.mk p.1 (Int.ofNat idx) [] w.pubKey))) vout).vin.length → validIdx m (Transaction.mk (hashing cp (Transaction.mk [] ((findSpendableOutputs us.bucket (hashingPubKey w.pubKey) amount).2.flatMap (fun p => p.2.map (fun idx => TxInput.mk p.1 (Int.ofNat idx) [] w.pubKey))) vout)) ((findSpendableOutputs us.bucket (hashingPubKey w.pubKey) amount).2.flatMap (fun p => p.2.map (fun idx => TxInput.mk p.1 (Int.ofNat idx) [] w.pubKey))) vout) i := by
    intro i hi
    have hmem : (Transaction.mk (hashing cp (Transaction.mk [] ((findSpendableOutputs us.bucket (hashingPubKey w.pubKey) amount).2.flatMap (fun p => p.2.map (fun idx => TxInput.mk p.1 (Int.ofNat idx) [] w.pubKey))) vout)) ((findSpendableOutputs us.bucket (hashingPubKey w.pubKey) amount).2.flatMap (fun p => p.2.map (fun idx => TxInput.mk p.1 (Int.ofNat idx) [] w.pubKey))) vout).vin.getD i default ∈ (Transaction.mk (hashing cp (Transaction.mk [] ((findSpendableOutputs us.bucket (hashingPubKey w.pubKey) amount).2.flatMap (fun p => p.2.map (fun idx => TxInput.mk p.1 (Int.ofNat idx) [] w.pubKey))) vout)) ((findSpendableOutputs us.bucket (hashingPubKey w.pubKey) amount).2.flatMap (fun p => p.2.map (fun idx => TxInput.mk p.1 (Int.ofNat idx) [] w.pubKey))) vout).vin :=
      List.get?_mem (get?_eq_some_getD _ _ hi)
    obtain ⟨t, ht, htid, hne, hnn, hto, hpk⟩ := hkey _ hmem
    unfold validIdx resolveInp
    rw [hlkup _ hmem, ht, Option.some_bind]
    unfold outAt
    rw [if_neg (by omega : ¬ ((Transaction.mk (hashing cp (Transaction.mk [] ((findSpendableOutputs us.bucket (hashingPubKey w.pubKey) amount).2.flatMap (fun p => p.2.map (fun idx => TxInput.mk p.1 (Int.ofNat idx) [] w.pubKey))) vout)) ((findSpendableOutputs us.bucket (hashingPubKey w.pubKey) amount).2.flatMap (fun p => p.2.map (fun idx => TxInput.mk p.1 (Int.ofNat idx) [] w.pubKey))) vout).vin.getD i default).voutIdx < 0)]
    rw [List.get?_eq_get hto]
    rfl
  have hpks1 : ∀ i, i < (Transaction.mk (hashing cp (Transaction.mk [] ((findSpendableOutputs us.bucket (hashingPubKey w.pubKey) amount).2.flatMap (fun p => p.2.map (fun idx => TxInput.mk p.1 (Int.ofNat idx) [] w.pubKey))) vout)) ((findSpendableOutputs us.bucket (hashingPubKey w.pubKey) amount).2.flatMap (fun p => p.2.map (fun idx => TxInput.mk p.1 (Int.ofNat idx) [] w.pubKey))) vout).vin.length → ((Transaction.mk (hashing cp (Transaction.mk [] ((findSpendableOutputs us.bucket (hashingPubKey w.pubKey) amount).2.flatMap (fun p => p.2.map (fun idx => TxInput.mk p.1 (Int.ofNat idx) [] w.pubKey))) vout)) ((findSpendableOutputs us.bucket (hashingPubKey w.pubKey) amount).2.flatMap (fun p => p.2.map (fun idx => TxInput.mk p.1 (Int.ofNat idx) [] w.pubKey))) vout).vin.getD i default).pubKey = w.pubKey := by
    intro i hi
    have hmem : (Transaction.mk (hashing cp (Transaction.mk [] ((findSpendableOutputs us.bucket (hashingPubKey w.pubKey) amount).2.flatMap (fun p => p.2.map (fun idx => TxInput.mk p.1 (Int.ofNat idx) [] w.pubKey))) vout)) ((findSpendableOutputs us.bucket (hashingPubKey w.pubKey) amount).2.flatMap (fun p => p.2.map (fun idx => TxInput.mk p.1 (Int.ofNat idx) [] w.pubKey))) vout).vin.getD i default ∈ (Transaction.mk (hashing cp (Transaction.mk [] ((findSpendableOutputs us.bucket (hashingPubKey w.pubKey) amount).2.flatMap (fun p => p.2.map (fun idx => TxInput.mk p.1 (Int.ofNat idx) [] w.pubKey))) vout)) ((findSpendableOutputs us.bucket (hashingPubKey w.pubKey) amount).2.flatMap (fun p => p.2.map (fun idx => TxInput.mk p.1 (Int.ofNat idx) [] w.pubKey))) vout).vin :=
      List.get?_mem (get?_eq_some_getD _ _ hi)
    obtain ⟨t, _, _, _, _, _, hpk⟩ := hkey _ hmem
    exact hpk
  obtain ⟨tx', hsign, hid, hvoutp, hlenp, hgetp⟩ :=
    sign_characterized cp w.priv m (Transaction.mk (hashing cp (Transaction.mk [] ((findSpendableOutputs us.bucket (hashingPubKey w.pubKey) amount).2.flatMap (fun p => p.2.map (fun idx => TxInput.mk p.1 (Int.ofNat idx) [] w.pubKey))) vout)) ((findSpendableOutputs us.bucket (hashingPubKey w.pubKey) amount).2.flatMap (fun p => p.2.map (fun idx => TxInput.mk p.1 (Int.ofNat idx) [] w.pubKey))) vout) hcb1 hpc1 hres1
  have hver : verify cp m tx' = some true :=
    verify_of_signed cp w.priv w.pubKey m (Transaction.mk (hashing cp (Transaction.mk [] ((findSpendableOutputs us.bucket (hashingPubKey w.pubKey) amount).2.flatMap (fun p => p.2.map (fun idx => TxInput.mk p.1 (Int.ofNat idx) [] w.pubKey))) vout)) ((findSpendableOutputs us.bucket (hashingPubKey w.pubKey) amount).2.flatMap (fun p => p.2.map (fun idx => TxInput.mk p.1 (Int.ofNat idx) [] w.pubKey))) vout) tx' hcb1 hpc1 hres1 hpks1 hsig
      hid hvoutp hlenp hgetp
  have hcb2 : isCoinbaseTx tx' = false :=
    signed_isCoinbase_false (Transaction.mk (hashing cp (Transaction.mk [] ((findSpendableOutputs us.bucket (hashingPubKey w.pubKey) amount).2.flatMap (fun p => p.2.map (fun idx => TxInput.mk p.1 (Int.ofNat idx) [] w.pubKey))) vout)) ((findSpendableOutputs us.bucket (hashingPubKey w.pubKey) amount).2.flatMap (fun p => p.2.map (fun idx => TxInput.mk p.1 (Int.ofNat idx) [] w.pubKey))) vout) tx' (fun j => sigAt cp w.priv m (Transaction.mk (hashing cp (Transaction.mk [] ((findSpendableOutputs us.bucket (hashingPubKey w.pubKey) amount).2.flatMap (fun p => p.2.map (fun idx => TxInput.mk p.1 (Int.ofNat idx) [] w.pubKey))) vout)) ((findSpendableOutputs us.bucket (hashingPubKey w.pubKey) amount).2.flatMap (fun p => p.2.map (fun idx => TxInput.mk p.1 (Int.ofNat idx) [] w.pubKey))) vout) j) hcb1 hlenp hgetp
  have htxmap : tx'.vin.map (fun i => i.txId) = (Transaction.mk (hashing cp (Transaction.mk [] ((findSpendableOutputs us.bucket (hashingPubKey w.pubKey) amount).2.flatMap (fun p => p.2.map (fun idx => TxInput.mk p.1 (Int.ofNat idx) [] w.pubKey))) vout)) ((findSpendableOutputs us.bucket (hashingPubKey w.pubKey) amount).2.flatMap (fun p => p.2.map (fun idx => TxInput.mk p.1 (Int.ofNat idx) [] w.pubKey))) vout).vin.map (fun i => i.txId) :=
    signed_map_eq (Transaction.mk (hashing cp (Transaction.mk [] ((findSpendableOutputs us.bucket (hashingPubKey w.pubKey) amount).2.flatMap (fun p => p.2.map (fun idx => TxInput.mk p.1 (Int.ofNat idx) [] w.pubKey))) vout)) ((findSpendableOutputs us.bucket (hashingPubKey w.pubKey) amount).2.flatMap (fun p => p.2.map (fun idx => TxInput.mk p.1 (Int.ofNat idx) [] w.pubKey))) vout) tx' (fun j => sigAt cp w.priv m (Transaction.mk (hashing cp (Transaction.mk [] ((findSpendableOutputs us.bucket (hashingPubKey w.pubKey) amount).2.flatMap (fun p => p.2.map (fun idx => TxInput.mk p.1 (Int.ofNat idx) [] w.pubKey))) vout)) ((findSpendableOutputs us.bucket (hashingPubKey w.pubKey) amount).2.flatMap (fun p => p.2.map (fun idx => TxInput.mk p.1 (Int.ofNat idx) [] w.pubKey))) vout) j) hlenp hgetp _
      (fun inp sg => rfl)
  have hprev2 : getPrevTxs us.chain tx' = some m := by
    rw [getPrevTxs_congr us.chain tx' (Transaction.mk (hashing cp (Transaction.mk [] ((findSpendableOutputs us.bucket (hashingPubKey w.pubKey) amount).2.flatMap (fun p => p.2.map (fun idx => TxInput.mk p.1 (Int.ofNat idx) [] w.pubKey))) vout)) ((findSpendableOutputs us.bucket (hashingPubKey w.pubKey) amount).2.flatMap (fun p => p.2.map (fun idx => TxInput.mk p.1 (Int.ofNat idx) [] w.pubKey))) vout) htxmap]
    exact hm
  refine ⟨tx', ?_, ?_, ?_, ?_, ?_⟩
  · simp only [newUTXOTx]
    rw [if_neg (not_lt.mpr hamt), hout0]
    simp only [Option.some_bind]
    rw [hvoutEq]
    simp only [Option.some_bind]
    unfold signTx
    rw [hm, Option.some_bind]
    exact hsign
  · unfold verifyTx
    rw [hcb2]
    simp only [Bool.false_eq_true, if_false]
    rw [hprev2, Option.some_bind]
    exact hver
  · intro i hi
    have hi1 : i < (Transaction.mk (hashing cp (Transaction.mk [] ((findSpendableOutputs us.bucket (hashingPubKey w.pubKey) amount).2.flatMap (fun p => p.2.map (fun idx => TxInput.mk p.1 (Int.ofNat idx) [] w.pubKey))) vout)) ((findSpendableOutputs us.bucket (hashingPubKey w.pubKey) amount).2.flatMap (fun p => p.2.map (fun idx => TxInput.mk p.1 (Int.ofNat idx) [] w.pubKey))) vout).vin.length := by rw [← hlenp]; exact hi
    have h2 : tx'.vin.get? i = some (tx'.vin.getD i default) :=
      get?_eq_some_getD _ _ hi
    rw [hgetp i hi1] at h2
    have hgd : tx'.vin.getD i default =
        { (Transaction.mk (hashing cp (Transaction.mk [] ((findSpendableOutputs us.bucket (hashingPubKey w.pubKey) amount).2.flatMap (fun p => p.2.map (fun idx => TxInput.mk p.1 (Int.ofNat idx) [] w.pubKey))) vout)) ((findSpendableOutputs us.bucket (hashingPubKey w.pubKey) amount).2.flatMap (fun p => p.2.map (fun idx => TxInput.mk p.1 (Int.ofNat idx) [] w.pubKey))) vout).vin.getD i default with signature := sigAt cp w.priv m (Transaction.mk (hashing cp (Transaction.mk [] ((findSpendableOutputs us.bucket (hashingPubKey w.pubKey) amount).2.flatMap (fun p => p.2.map (fun idx => TxInput.mk p.1 (Int.ofNat idx) [] w.pubKey))) vout)) ((findSpendableOutputs us.bucket (hashingPubKey w.pubKey) amount).2.flatMap (fun p => p.2.map (fun idx => TxInput.mk p.1 (Int.ofNat idx) [] w.pubKey))) vout) i } :=
      (Option.some.inj h2).symm
    rw [hgd]
    show ((Transaction.mk (hashing cp (Transaction.mk [] ((findSpendableOutputs us.bucket (hashingPubKey w.pubKey) amount).2.flatMap (fun p => p.2.map (fun idx => TxInput.mk p.1 (Int.ofNat idx) [] w.pubKey))) vout)) ((findSpendableOutputs us.bucket (hashingPubKey w.pubKey) amount).2.flatMap (fun p => p.2.map (fun idx => TxInput.mk p.1 (Int.ofNat idx) [] w.pubKey))) vout).vin.getD i default).pubKey = w.pubKey
    exact hpks1 i hi1
  · have h1 : tx'.vin.map (fun inp => (inp.txId, inp.voutIdx)) =
        (Transaction.mk (hashing cp (Transaction.mk [] ((findSpendableOutputs us.bucket (hashingPubKey w.pubKey) amount).2.flatMap (fun p => p.2.map (fun idx => TxInput.mk p.1 (Int.ofNat idx) [] w.pubKey))) vout)) ((findSpendableOutputs us.bucket (hashingPubKey w.pubKey) amount).2.flatMap (fun p => p.2.map (fun idx => TxInput.mk p.1 (Int.ofNat idx) [] w.pubKey))) vout).vin.map (fun inp => (inp.txId, inp.voutIdx)) :=
      signed_map_eq (Transaction.mk (hashing cp (Transaction.mk [] ((findSpendableOutputs us.bucket (hashingPubKey w.pubKey) amount).2.flatMap (fun p => p.2.map (fun idx => TxInput.mk p.1 (Int.ofNat idx) [] w.pubKey))) vout)) ((findSpendableOutputs us.bucket (hashingPubKey w.pubKey) amount).2.flatMap (fun p => p.2.map (fun idx => TxInput.mk p.1 (Int.ofNat idx) [] w.pubKey))) vout) tx' (fun j => sigAt cp w.priv m (Transaction.mk (hashing cp (Transaction.mk [] ((findSpendableOutputs us.bucket (hashingPubKey w.pubKey) amount).2.flatMap (fun p => p.2.map (fun idx => TxInput.mk p.1 (Int.ofNat idx) [] w.pubKey))) vout)) ((findSpendableOutputs us.bucket (hashingPubKey w.pubKey) amount).2.flatMap (fun p => p.2.map (fun idx => TxInput.mk p.1 (Int.ofNat idx) [] w.pubKey))) vout) j) hlenp hgetp _
        (fun inp sg => rfl)
    rw [h1]
    show ((findSpendableOutputs us.bucket (hashingPubKey w.pubKey) amount).2.flatMap (fun p => p.2.map (fun idx => TxInput.mk p.1 (Int.ofNat idx) [] w.pubKey))).map (fun inp => (inp.txId, inp.voutIdx)) = _
    rw [List.map_flatMap]
    simp only [List.map_map]
    rfl
  · have h1 : tx'.vin.map (fun inp => { inp with signature := [] }) =
        (Transaction.mk (hashing cp (Transaction.mk [] ((findSpendableOutputs us.bucket (hashingPubKey w.pubKey) amount).2.flatMap (fun p => p.2.map (fun idx => TxInput.mk p.1 (Int.ofNat idx) [] w.pubKey))) vout)) ((findSpendableOutputs us.bucket (hashingPubKey w.pubKey) amount).2.flatMap (fun p => p.2.map (fun idx => TxInput.mk p.1 (Int.ofNat idx) [] w.pubKey))) vout).vin.map (fun inp => { inp with signature := [] }) :=
      signed_map_eq (Transaction.mk (hashing cp (Transaction.mk [] ((findSpendableOutputs us.bucket (hashingPubKey w.pubKey) amount).2.flatMap (fun p => p.2.map (fun idx => TxInput.mk p.1 (Int.ofNat idx) [] w.pubKey))) vout)) ((findSpendableOutputs us.bucket (hashingPubKey w.pubKey) amount).2.flatMap (fun p => p.2.map (fun idx => TxInput.mk p.1 (Int.ofNat idx) [] w.pubKey))) vout) tx' (fun j => sigAt cp w.priv m (Transaction.mk (hashing cp (Transaction.mk [] ((findSpendableOutputs us.bucket (hashingPubKey w.pubKey) amount).2.flatMap (fun p => p.2.map (fun idx => TxInput.mk p.1 (Int.ofNat idx) [] w.pubKey))) vout)) ((findSpendableOutputs us.bucket (hashingPubKey w.pubKey) amount).2.flatMap (fun p => p.2.map (fun idx => TxInput.mk p.1 (Int.ofNat idx) [] w.pubKey))) vout) j) hlenp hgetp _
        (fun inp sg => rfl)
    have h2 : ∀ a ∈ (Transaction.mk (hashing cp (Transaction.mk [] ((findSpendableOutputs us.bucket (hashingPubKey w.pubKey) amount).2.flatMap (fun p => p.2.map (fun idx => TxInput.mk p.1 (Int.ofNat idx) [] w.pubKey))) vout)) ((findSpendableOutputs us.bucket (hashingPubKey w.pubKey) amount).2.flatMap (fun p => p.2.map (fun idx => TxInput.mk p.1 (Int.ofNat idx) [] w.pubKey))) vout).vin,
        (fun inp => { inp with signature := [] }) a = id a := by
      intro a ha
      rcases List.mem_flatMap.mp ha with ⟨p, hp, hin⟩
      rcases List.mem_map.mp hin with ⟨idx, hidx, heq⟩
      subst heq
      rfl
    rw [h1, List.map_congr_left h2, List.map_id, hvoutp]
    exact hid

/-- The sender wallet of the C1 witness scenario. -/
def c1Wallet : Wallet := ⟨5, [5]⟩

/-- The previous transaction paying 10 coins to the sender. -/
def c1PrevTx : Transaction := ⟨[1], [⟨[], -1, [], [9]⟩], [⟨10, hashingPubKey [5]⟩]⟩

/-- The block holding the previous transaction. -/
def c1Block : Block := ⟨0, [], [7], 0, [c1PrevTx]⟩

/-- The chain of the witness scenario. -/
def c1Chain : BlockChain := ⟨[c1Block], [7], [7]⟩

/-- A UTXO bucket consistent with the chain. -/
def c1Bucket : Bucket := [([1], [⟨10, hashingPubKey [5]⟩])]

/-- The UTXO set of the witness scenario. -/
def c1Us : UTXOSet := ⟨c1Chain, c1Bucket⟩

/-- A destination address whose base58 decoding has six bytes. -/
def c1Dst : List Nat := [122, 122, 122, 122, 122, 122]

/-- Witness for C1: a spend of the full 10-coin balance on a concrete chain
with the concrete primitives. -/
theorem newUTXOTx_verifies_witness :
    ∃ tx', newUTXOTx toyPrims c1Wallet c1Dst 10 c1Us = some tx' ∧
      verifyTx toyPrims c1Us.chain tx' = some true ∧
      (∀ i, i < tx'.vin.length → (tx'.vin.getD i default).pubKey = c1Wallet.pubKey) ∧
      tx'.vin.map (fun inp => (inp.txId, inp.voutIdx)) =
        (findSpendableOutputs c1Us.bucket (hashingPubKey c1Wallet.pubKey) 10).2.flatMap (fun p => p.2.map (fun idx => (p.1, Int.ofNat idx))) ∧
      tx'.id = hashing toyPrims
        (Transaction.mk [] (tx'.vin.map (fun inp => { inp with signature := [] })) tx'.vout) :=
  newUTXOTx_verifies toyPrims c1Wallet c1Dst 10 c1Us
    (by intro d; simp [toyPrims, c1Wallet])
    (by decide)
    (by decide)
    (fun hlt => absurd hlt (by decide))
    (by
      intro p hp
      have hmem : p ∈ [(([1] : List Nat), ([0] : List Nat))] := hp
      rw [List.mem_singleton] at hmem
      subst hmem
      refine ⟨by decide, c1PrevTx, by decide, ?_⟩
      intro idx hidx
      have h0 : idx ∈ [(0 : Nat)] := hidx
      have h1 : idx = 0 := by simpa using h0
      subst h1
      decide)

end LightChain
